import Mathlib

set_option maxRecDepth 100000

/-!
# Verification of the bipolar build engine

A shallow embedding of the `bipolar` A/B-experiment build tool
(`src/config.rs`, `src/build.rs`, `src/runner.rs`) together with proofs
about its specification.

Modelling conventions:

* Rust `usize`/`u64`/`u8` values are `Nat` (no arithmetic in the sources
  overflows: values are shard counts, percentages and seeds).
* `HashMap<String, V>` is an association list `List (String × V)` with
  first-match lookup (`lookupSplit`), or a total function with default
  `[]` for the `applied` map (matching the `entry(..).or_insert(vec![])`
  access pattern of `build.rs`).
* Filesystem / git / process side effects are oracles: an `Env` record
  of success flags and an event trace records which external operation
  the engine invokes, in order.  The control flow around the oracles is
  translated from `build.rs` line by line; every `?` early return is an
  `Except.error` result.
* The ChaCha8 generator seeded from `DefaultHasher(seed, name)`
  (`shuffled_shards`, build.rs:243-266) is modelled as an abstract draw
  stream `Nat → String → Nat → Nat` (`stream seed name k` is the k-th
  draw for the pair `(seed, name)`); the Fisher–Yates loop of
  `rand::SliceRandom::shuffle` over that stream is translated exactly.
  Purity of the embedding captures the determinism of the real
  generator; no property proved below depends on the draw values.
-/

/-! ## Configuration data model (`src/config.rs`) -/

structure DefaultStrategy where
deriving DecidableEq

structure RandomStrategy where
  seed : Nat
deriving DecidableEq

inductive StrategyType where
  | Proxy (d : DefaultStrategy)
  | Random (r : RandomStrategy)
deriving DecidableEq

structure Assignment where
  split : List (String × Nat)
  strategy : StrategyType
deriving DecidableEq

structure BranchTreatment where
  name : String
  ref_ : String
deriving DecidableEq

structure CommitTreatment where
  name : String
  ref_ : String
deriving DecidableEq

structure PatchTreatment where
  name : String
  patch : String
deriving DecidableEq

inductive Treatment where
  | Branch (t : BranchTreatment)
  | Commit (t : CommitTreatment)
  | Patch (t : PatchTreatment)
deriving DecidableEq

/-- Treatment name extraction, as matched in `build.rs:340-344`. -/
def Treatment.name : Treatment → String
  | .Branch t => t.name
  | .Commit t => t.name
  | .Patch t => t.name

structure Hooks where
  control_build : Option String
  build : Option String
  run : Option String
deriving DecidableEq

structure Templating where
  path : String
  config : List (String × String)
deriving DecidableEq

/-- `config::ExperimentConfig`.  The fields `symlinks`, `symlinks_base`
and `environment` are used by `build.rs`/`runner.rs` but their
declarations are not in the provided `config.rs`; they are modelled from
the spec (§4.5 step 5, §4.6: an optional symlink list with an optional
base directory, and an optional environment-variable mapping). -/
structure ExperimentConfig where
  name : String
  repo : String
  base : String
  treatments : List Treatment
  assignment : Assignment
  hooks : Hooks
  templating : Option Templating
  symlinks : Option (List String)
  symlinks_base : Option String
  environment : Option (List (String × String))
  shard_count : Nat
  minmax : Nat × Nat

/-- First-match association-list lookup, modelling `HashMap::get`. -/
def lookupSplit : List (String × Nat) → String → Option Nat
  | [], _ => none
  | (k, v) :: rest, s => if k = s then some v else lookupSplit rest s

/-! ## Lockfile (`src/build.rs:14-36`) -/

/-- `build::LockFile`.  `applied` is the map treatment name → list of
shard ids already treated, modelled as a total function with default
`[]` (the code only ever reads it through `entry(..).or_insert(vec![])`). -/
structure LockFile where
  assignment : Assignment
  base : String
  repo : String
  shard_count : Nat
  minmax : Nat × Nat
  applied : String → List Nat

/-- `LockFile::eq` (build.rs:25-35): the compatibility predicate.
`self` is the persisted lockfile, `other` the desired one
(`compare_lockfile` calls `current_lockfile.eq(lockfile)`). -/
def LockFile.eq (self other : LockFile) : Bool :=
  decide (self.base = other.base)
    && decide (self.repo = other.repo)
    && decide (self.shard_count = other.shard_count)
    && decide (self.minmax = other.minmax)
    && self.assignment.split.all (fun kv =>
        match lookupSplit other.assignment.split kv.1 with
        | some bv => decide (kv.2 ≤ bv)
        | none => false)
    && match self.assignment.strategy, other.assignment.strategy with
       | StrategyType.Random r1, StrategyType.Random r2 => decide (r1.seed = r2.seed)
       | _, _ => false

/-- `form_lockfile` (build.rs:73-82): desired lockfile from the config,
with an empty `applied` map. -/
def form_lockfile (config : ExperimentConfig) : LockFile :=
  { assignment := config.assignment
    base := config.base
    repo := config.repo
    shard_count := config.shard_count
    minmax := config.minmax
    applied := fun _ => [] }

/-- `compare_lockfile` (build.rs:56-71).  `persisted = none` models a
missing or unparseable on-disk lockfile (both end in the `Err` branch);
otherwise the persisted lockfile is returned iff it is compatible. -/
def compare_lockfile (persisted : Option LockFile) (desired : LockFile) : Option LockFile :=
  match persisted with
  | some current => if LockFile.eq current desired then some current else none
  | none => none

/-! ## Assignment engine (`src/build.rs:243-266`) -/

/-- One Fisher–Yates swap on a list: exchange positions `i` and `j`
(identity when either index is out of bounds, which never happens in
`shuffleAux` below). -/
def listSwap (l : List Nat) (i j : Nat) : List Nat :=
  match l[i]?, l[j]? with
  | some x, some y => (l.set i y).set j x
  | _, _ => l

/-- The loop of `rand::seq::SliceRandom::shuffle`:
`for i in (1..len).rev() { swap(i, gen_range(0..=i)) }`.
`rng k` is the k-th raw draw; `gen_range(0..=i)` is modelled as
`rng i % (i+1)`, an arbitrary in-range index. -/
def shuffleAux (rng : Nat → Nat) : Nat → List Nat → List Nat
  | 0, l => l
  | i+1, l => shuffleAux rng i (listSwap l (i+1) (rng (i+1) % (i+2)))

/-- Full shuffle of a list (identity on `[]` and singletons, as in the
Rust loop which starts at `len - 1`). -/
def shuffleList (rng : Nat → Nat) (l : List Nat) : List Nat :=
  shuffleAux rng (l.length - 1) l

/-- `shuffled_shards` (build.rs:243-266): collect `(min..max)` and
shuffle it with the generator derived from `(seed, treatment_name)`.
The hash/ChaCha8 derivation is the abstract `stream` (see module
docstring). -/
def shuffled_shards (stream : Nat → String → Nat → Nat) (seed : Nat) (name : String)
    (mn mx : Nat) : List Nat :=
  shuffleList (stream seed name) (List.range' mn (mx - mn))

/-- The per-treatment ordered shard id list chosen in `build`
(build.rs:346-351): `Random` shuffles the **full** space `[0, shard_count)`,
any other strategy yields the identity order on `[min, max)`. -/
def treatmentOrder (config : ExperimentConfig) (stream : Nat → String → Nat → Nat)
    (name : String) : List Nat :=
  match config.assignment.strategy with
  | StrategyType.Random r => shuffled_shards stream r.seed name 0 config.shard_count
  | _ => List.range' config.minmax.1 (config.minmax.2 - config.minmax.1)

/-! ### IEEE-754 binary64 model for the count computation

build.rs:361 computes
`((shard_ids.len() as f64) * (split as f64 / 100.0)).round() as usize`.
Every value arising there is a nonnegative dyadic rational, represented
below as a mantissa/exponent pair `(m : Nat, e : Int)` of value
`m * 2 ^ e`.  The `usize → f64`/`u8 → f64` conversions, the division by
the exact constant `100.0` and the multiplication each round their
exact result to 53 bits of precision, to nearest, ties to even
(`flFrac`); `f64::round` then rounds to an integer, half away from
zero (`roundHalfAwayDyadic`).  Zeros, subnormals and overflow cannot
occur except for the exact zero products, which the pipeline handles
exactly.  Everything is natural-number arithmetic so that concrete runs
reduce inside the kernel. -/

/-- `⌊log₂ n⌋` by fuel-bounded halving (`Nat.log2` itself is defined by
well-founded recursion, which the kernel will not reduce). -/
def natLog2Aux : Nat → Nat → Nat
  | 0, _ => 0
  | fuel + 1, n => if n < 2 then 0 else natLog2Aux fuel (n / 2) + 1

/-- `⌊log₂ n⌋` for `n ≥ 1` (and 0 at 0). -/
def natLog2 (n : Nat) : Nat := natLog2Aux n n

/-- Decide `2 ^ e ≤ a / b` by cross-multiplication. -/
def dyLe (e : Int) (a b : Nat) : Bool :=
  match e with
  | Int.ofNat k => decide (b * 2 ^ k ≤ a)
  | Int.negSucc k => decide (b ≤ a * 2 ^ (k + 1))

/-- Round `num / den` to the nearest integer, ties to even (the IEEE
rounding of a mantissa). -/
def rnePair (num den : Nat) : Nat :=
  let q := num / den
  let r := num % den
  if 2 * r < den then q
  else if den < 2 * r then q + 1
  else if q % 2 = 0 then q else q + 1

/-- `⌊log₂ (a / b)⌋`: first guess from the integer logs, then one
correction step. -/
def flL (a b : Nat) : Int :=
  let e0 : Int := (natLog2 a : Int) - (natLog2 b : Int) - 1
  if dyLe (e0 + 1) a b then e0 + 1 else e0

/-- Round the positive fraction `a / b` to the nearest IEEE-754
binary64 value (53-bit mantissa, round to nearest, ties to even),
returned as a mantissa/exponent pair of value `mantissa * 2 ^ exponent`. -/
def flFrac (a b : Nat) : Nat × Int :=
  match flL a b - 52 with
  | Int.ofNat k => (rnePair a (b * 2 ^ k), Int.ofNat k)
  | Int.negSucc k => (rnePair (a * 2 ^ (k + 1)) b, Int.negSucc k)

/-- A mantissa/exponent pair as an exact fraction `(numerator,
denominator)`. -/
def dyadicFrac (m : Nat) (e : Int) : Nat × Nat :=
  match e with
  | Int.ofNat k => (m * 2 ^ k, 1)
  | Int.negSucc k => (m, 2 ^ (k + 1))

/-- The exact rational value of a mantissa/exponent pair (specification
only; proofs relate the natural-number pipeline to it). -/
def dyVal (m : Nat) (e : Int) : ℚ := (m : ℚ) * (2 : ℚ) ^ e

/-- `f64::round` on a nonnegative dyadic: nearest integer, half away
from zero. -/
def roundHalfAwayDyadic (m : Nat) (e : Int) : Nat :=
  match e with
  | Int.ofNat k => m * 2 ^ k
  | Int.negSucc k =>
    let d := 2 ^ (k + 1)
    if d ≤ 2 * (m % d) then m / d + 1 else m / d

/-- The count computation of build.rs:361, with the binary64 arithmetic
modelled exactly: convert `len` and `split` to f64, divide the latter
by the exact `100.0`, multiply, and round half away from zero.  (The
final `as usize` is exact for every value the claims touch; saturation
of astronomically large counts is not modelled.) -/
def resolve_count (len split : Nat) : Nat :=
  let lf := flFrac len 1
  let sf := flFrac split 1
  let sd := dyadicFrac sf.1 sf.2
  let bf := flFrac sd.1 (sd.2 * 100)
  let ld := dyadicFrac lf.1 lf.2
  let bd := dyadicFrac bf.1 bf.2
  let pf := flFrac (ld.1 * bd.1) (ld.2 * bd.2)
  roundHalfAwayDyadic pf.1 pf.2

/-- The window test of build.rs:368: a shard id is processed only when
`min ≤ i < max` (the loop `continue`s when `i < min || i >= max`). -/
def inWindow (config : ExperimentConfig) (i : Nat) : Bool :=
  decide (config.minmax.1 ≤ i) && decide (i < config.minmax.2)

/-! ## Build orchestrator (`src/build.rs:318-422`), as a trace model -/

/-- External operations the build invokes, in invocation order. -/
inductive Event where
  | nuke
  | cloneControl
  | controlHook
  | ensureShards
  | apply (name : String) (i : Nat)
  | buildHook (i : Nat)
  | template (i : Nat)
  | symlink (i : Nat) (s : String)
  | writeLockfile
deriving DecidableEq

inductive BuildError where
  | removeDir
  | cloneControl
  | controlHook
  | shards
  | applyTreatment (name : String) (i : Nat)
  | buildHook (i : Nat)
  | template (i : Nat)
  | symlink (i : Nat) (s : String)
deriving DecidableEq

/-- Success/failure oracle for every fallible external operation, plus
the abstract random draw stream. -/
structure Env where
  removeOk : Bool
  cloneOk : Bool
  controlHookOk : Bool
  shardsOk : Bool
  applyOk : String → Nat → Bool
  buildHookOk : Nat → Bool
  templateOk : Nat → Bool
  symlinkOk : Nat → String → Bool
  stream : Nat → String → Nat → Nat

/-- Lines 320-328 of `build.rs`: desired lockfile, compatibility check,
nuke decision.  Note that on a compatible persisted lockfile the
in-progress lockfile becomes the **persisted** one even when
`nuclear = true`. -/
def initialLockfile (config : ExperimentConfig) (nuclear : Bool)
    (persisted : Option LockFile) : LockFile × Bool :=
  match compare_lockfile persisted (form_lockfile config) with
  | some current => (current, nuclear)
  | none => (form_lockfile config, true)

/-- Pointwise update of the `applied` map. -/
def updApplied (applied : String → List Nat) (name : String) (l : List Nat) :
    String → List Nat :=
  fun n => if n = name then l else applied n

/-- The inner loop of build.rs:367-378: for each due shard id, skip it
silently when outside `[min, max)`, otherwise invoke `apply_treatment`
(recorded as an `Event.apply`) and push the id onto `applied[name]`;
an apply failure aborts the run. -/
def applyLoop (env : Env) (config : ExperimentConfig) (name : String) :
    List Nat → List Nat → List Event × Except BuildError (List Nat)
  | [], applied => ([], Except.ok applied)
  | i :: rest, applied =>
    if i < config.minmax.1 ∨ config.minmax.2 ≤ i then
      applyLoop env config name rest applied
    else if env.applyOk name i then
      let r := applyLoop env config name rest (applied ++ [i])
      (Event.apply name i :: r.1, r.2)
    else
      ([Event.apply name i], Except.error (BuildError.applyTreatment name i))

/-- The due id list for one treatment (build.rs:362-366): take the
first `resolve_count` ids of the treatment's ordering, then skip the
first `applied[name].len()` of those. -/
def dueList (env : Env) (config : ExperimentConfig) (applied : String → List Nat)
    (name : String) (sp : Nat) : List Nat :=
  ((treatmentOrder config env.stream name).take
      (resolve_count (treatmentOrder config env.stream name).length sp)).drop
    (applied name).length

/-- The treatments loop of build.rs:339-379: per treatment, compute the
ordering, skip when no split is configured, and run `applyLoop` on the
due ids. -/
def treatmentsLoop (env : Env) (config : ExperimentConfig) :
    List Treatment → (String → List Nat) →
    List Event × Except BuildError (String → List Nat)
  | [], applied => ([], Except.ok applied)
  | t :: ts, applied =>
    match lookupSplit config.assignment.split t.name with
    | none => treatmentsLoop env config ts applied
    | some sp =>
      let a := applyLoop env config t.name (dueList env config applied t.name sp)
        (applied t.name)
      match a.2 with
      | Except.ok l =>
        let r := treatmentsLoop env config ts (updApplied applied t.name l)
        (a.1 ++ r.1, r.2)
      | Except.error e => (a.1, Except.error e)

/-- The shard id range `[min, max)` materialized by this instance. -/
def shardRange (config : ExperimentConfig) : List Nat :=
  List.range' config.minmax.1 (config.minmax.2 - config.minmax.1)

/-- Symlink recreation for one shard (build.rs:399-410). -/
def symlinkLoop (env : Env) (i : Nat) :
    List String → List Event × Except BuildError Unit
  | [] => ([], Except.ok ())
  | s :: rest =>
    if env.symlinkOk i s then
      let r := symlinkLoop env i rest
      (Event.symlink i s :: r.1, r.2)
    else
      ([Event.symlink i s], Except.error (BuildError.symlink i s))

/-- Per-shard finalization (build.rs:382-411): build hook, then
templating, then symlinks, each conditional on configuration and each
fallible. -/
def finalizeShard (env : Env) (config : ExperimentConfig) (i : Nat) :
    List Event × Except BuildError Unit :=
  let hookStep : List Event × Except BuildError Unit :=
    if config.hooks.build.isSome then
      if env.buildHookOk i then ([Event.buildHook i], Except.ok ())
      else ([Event.buildHook i], Except.error (BuildError.buildHook i))
    else ([], Except.ok ())
  match hookStep.2 with
  | Except.error e => (hookStep.1, Except.error e)
  | Except.ok _ =>
    let tmplStep : List Event × Except BuildError Unit :=
      if config.templating.isSome then
        if env.templateOk i then ([Event.template i], Except.ok ())
        else ([Event.template i], Except.error (BuildError.template i))
      else ([], Except.ok ())
    match tmplStep.2 with
    | Except.error e => (hookStep.1 ++ tmplStep.1, Except.error e)
    | Except.ok _ =>
      match config.symlinks with
      | some links =>
        let r := symlinkLoop env i links
        (hookStep.1 ++ tmplStep.1 ++ r.1, r.2)
      | none => (hookStep.1 ++ tmplStep.1, Except.ok ())

/-- The finalization loop over all shards of `[min, max)`. -/
def finalizeLoop (env : Env) (config : ExperimentConfig) :
    List Nat → List Event × Except BuildError Unit
  | [] => ([], Except.ok ())
  | i :: rest =>
    let f := finalizeShard env config i
    match f.2 with
    | Except.ok _ =>
      let r := finalizeLoop env config rest
      (f.1 ++ r.1, r.2)
    | Except.error e => (f.1, Except.error e)

/-- The nuke phase (build.rs:330-335): delete the build directory and
re-clone the control repo (running the control-build hook when
configured, build.rs:139-146). -/
def nukeStep (env : Env) (config : ExperimentConfig) (nuke : Bool) :
    List Event × Except BuildError Unit :=
  if nuke then
    if env.removeOk then
      if env.cloneOk then
        match config.hooks.control_build with
        | some _ =>
          if env.controlHookOk then
            ([Event.nuke, Event.cloneControl, Event.controlHook], Except.ok ())
          else
            ([Event.nuke, Event.cloneControl, Event.controlHook],
              Except.error BuildError.controlHook)
        | none => ([Event.nuke, Event.cloneControl], Except.ok ())
      else ([Event.nuke, Event.cloneControl], Except.error BuildError.cloneControl)
    else ([Event.nuke], Except.error BuildError.removeDir)
  else ([], Except.ok ())

/-- `build` (build.rs:318-422) as a trace model: returns the ordered
list of external operations invoked and either the final lockfile (the
one written to disk by `write_lockfile` at line 416) or the error that
aborted the run.  `Event.writeLockfile` is emitted exactly when line 416
is reached. -/
def build (config : ExperimentConfig) (nuclear : Bool) (persisted : Option LockFile)
    (env : Env) : List Event × Except BuildError LockFile :=
  let p := initialLockfile config nuclear persisted
  let ns := nukeStep env config p.2
  match ns.2 with
  | Except.error e => (ns.1, Except.error e)
  | Except.ok _ =>
    if env.shardsOk then
      let tl := treatmentsLoop env config config.treatments p.1.applied
      match tl.2 with
      | Except.error e => (ns.1 ++ Event.ensureShards :: tl.1, Except.error e)
      | Except.ok appliedF =>
        let lf1 : LockFile := { p.1 with applied := appliedF }
        let finStep : List Event × Except BuildError Unit :=
          if config.hooks.build.isSome || config.templating.isSome
              || config.symlinks.isSome then
            finalizeLoop env config (shardRange config)
          else ([], Except.ok ())
        match finStep.2 with
        | Except.error e =>
          (ns.1 ++ Event.ensureShards :: (tl.1 ++ finStep.1), Except.error e)
        | Except.ok _ =>
          (ns.1 ++ Event.ensureShards :: (tl.1 ++ finStep.1 ++ [Event.writeLockfile]),
            Except.ok lf1)
    else (ns.1 ++ [Event.ensureShards], Except.error BuildError.shards)

/-! ## Treatment applier: merge model (`src/build.rs:151-241`)

The libgit2 queries of `merge_commit_into` (merge base, tree lookup,
three-way tree merge, tree write) are modelled as an oracle `GitEnv`;
the function's own control flow — which arguments it passes to
`merge_trees`, how the conflict loop resolves each entry, and which
parents the new commit gets — is translated exactly. -/

structure IndexEntry where
  path : String
  oid : Nat
deriving DecidableEq

/-- A conflict record of the merged index (`git2::IndexConflict`); the
`ancestor` side is never read by the code and is omitted. -/
structure ConflictEntry where
  our : Option IndexEntry
  their : Option IndexEntry
deriving DecidableEq

structure MergeIndex where
  entries : List IndexEntry
  conflicts : List ConflictEntry
deriving DecidableEq

/-- The path a conflict is recorded under: the path of its "ours" side
when present, else of its "theirs" side (in git both sides carry the
same path). -/
def ConflictEntry.sidePath (c : ConflictEntry) : Option String :=
  match c.our with
  | some e => some e.path
  | none =>
    match c.their with
    | some e => some e.path
    | none => none

/-- The side the conflict loop of build.rs:167-175 picks: "ours" if an
ours side exists, else "theirs" (else nothing). -/
def ConflictEntry.chosen (c : ConflictEntry) : Option IndexEntry :=
  match c.our with
  | some o => some o
  | none => c.their

/-- `git_index_add` semantics: stage the entry (replacing any stage-0
entry at its path) and clear conflict records at that path. -/
def MergeIndex.add (idx : MergeIndex) (e : IndexEntry) : MergeIndex :=
  { entries := idx.entries.filter (fun en => decide (en.path ≠ e.path)) ++ [e]
    conflicts := idx.conflicts.filter (fun c => decide (c.sidePath ≠ some e.path)) }

/-- One iteration of the conflict loop of build.rs:167-175:
`index.add` the ours side if it exists, else the theirs side, else do
nothing. -/
def resolveOne (acc : MergeIndex) (c : ConflictEntry) : MergeIndex :=
  match c.our with
  | some ours => acc.add ours
  | none =>
    match c.their with
    | some theirs => acc.add theirs
    | none => acc

/-- The conflict loop of build.rs:165-175: collect the conflicts, then
resolve each one into the index. -/
def resolveConflicts (idx : MergeIndex) : MergeIndex :=
  idx.conflicts.foldl resolveOne idx

structure CommitObj where
  id : Nat
  tree : Nat
  parents : List Nat
deriving DecidableEq

/-- Oracle for the libgit2 repository queries used by
`merge_commit_into`: the shard's HEAD commit, merge-base and
commit-tree lookup, three-way tree merge, tree write, and the id the
new commit object receives. -/
structure GitEnv where
  headCommit : CommitObj
  mergeBase : Nat → Nat → Nat
  treeOf : Nat → Nat
  mergeTrees : Nat → Nat → Nat → MergeIndex
  writeTree : MergeIndex → Nat
  newCommitId : Nat

/-- The index produced by `repo.merge_trees(&ancestor_tree, &head_tree,
&commit_tree, None)` at build.rs:160, with
`ancestor = repo.merge_base(head, commit)`. -/
def mergedIndex (g : GitEnv) (target : CommitObj) : MergeIndex :=
  g.mergeTrees (g.treeOf (g.mergeBase g.headCommit.id target.id))
    (g.treeOf g.headCommit.id) (g.treeOf target.id)

/-- `merge_commit_into` (build.rs:151-200): three-way merge of HEAD and
the target against their merge base, deterministic conflict resolution,
then a commit whose parents are `[&head_commit, &commit]`.  Returns the
new commit object together with the resolved index whose tree it
records. -/
def merge_commit_into (g : GitEnv) (target : CommitObj) : CommitObj × MergeIndex :=
  let idx0 := mergedIndex g target
  let idx1 := if idx0.conflicts.isEmpty then idx0 else resolveConflicts idx0
  let treeOid := g.writeTree idx1
  ({ id := g.newCommitId, tree := treeOid, parents := [g.headCommit.id, target.id] },
    idx1)

/-! ## Process supervisor (`src/runner.rs`) -/

inductive RunEvent where
  | setVar (key value : String)
  | spawn (shard : Nat)
  | sleepMs (ms : Nat)
  | kill (shard : Nat)
deriving DecidableEq

/-- The spawn loop of runner.rs:17-28: per shard in `[min, max)`, spawn
the run hook asynchronously (failure propagates) and sleep 500 ms. -/
def spawnLoop (spawnOk : Nat → Bool) :
    List Nat → List RunEvent × Except String (List Nat)
  | [] => ([], Except.ok [])
  | i :: rest =>
    if spawnOk i then
      let r := spawnLoop spawnOk rest
      (RunEvent.spawn i :: RunEvent.sleepMs 500 :: r.1,
        match r.2 with
        | Except.ok children => Except.ok (i :: children)
        | Except.error e => Except.error e)
    else ([RunEvent.spawn i], Except.error "spawn")

/-- `runner::run` (runner.rs:4-50) as a trace model: fail immediately
when no run hook is configured; otherwise apply the configured
environment variables, spawn one staggered child per shard, and — once
the cancellation flag set by the ctrl-c handler is observed — kill every
child.  The wait loop itself has no observable effect and is elided. -/
def runner_run (config : ExperimentConfig) (spawnOk : Nat → Bool) :
    List RunEvent × Except String Unit :=
  if config.hooks.run.isNone then ([], Except.error "no run hook found")
  else
    let envEvents :=
      match config.environment with
      | some kvs => kvs.map (fun kv => RunEvent.setVar kv.1 kv.2)
      | none => []
    match spawnLoop spawnOk (shardRange config) with
    | (ev, Except.ok children) =>
      (envEvents ++ ev ++ children.map RunEvent.kill, Except.ok ())
    | (ev, Except.error e) => (envEvents ++ ev, Except.error e)

/-! ## Concrete fixtures for witnesses and counterexamples -/

/-- A draw stream that always returns 0 (the properties proved below
hold for every stream; fixtures just need one). -/
def streamZero : Nat → String → Nat → Nat := fun _ _ _ => 0

/-- An environment in which every external operation succeeds. -/
def envAllOk (stream : Nat → String → Nat → Nat) : Env :=
  { removeOk := true
    cloneOk := true
    controlHookOk := true
    shardsOk := true
    applyOk := fun _ _ => true
    buildHookOk := fun _ => true
    templateOk := fun _ => true
    symlinkOk := fun _ _ => true
    stream := stream }

def hooksNone : Hooks := { control_build := none, build := none, run := none }

/-- Full-window scenario config: 10 shards, window `[0, 10)`, random
seed 0, treatment `A` with split 60 (the rebuild side of the 30 → 60
scenario). -/
def cfgFull60 : ExperimentConfig :=
  { name := "exp"
    repo := "r"
    base := "b"
    treatments := [Treatment.Patch { name := "A", patch := "p" }]
    assignment := { split := [("A", 60)], strategy := StrategyType.Random { seed := 0 } }
    hooks := hooksNone
    templating := none
    symlinks := none
    symlinks_base := none
    environment := none
    shard_count := 10
    minmax := (0, 10) }

/-- Persisted lockfile left by a split-30 build of `cfgFull60`'s
experiment: `applied["A"]` is the first `round(10 * 0.30) = 3` ids of
the stream-zero ordering `[1,2,3,4,5,6,7,8,9,0]`. -/
def lock30 : LockFile :=
  { assignment := { split := [("A", 30)], strategy := StrategyType.Random { seed := 0 } }
    base := "b"
    repo := "r"
    shard_count := 10
    minmax := (0, 10)
    applied := fun n => if n = "A" then [1, 2, 3] else [] }

/-- Sub-window config: 4 total shards but this instance only
materializes `[0, 2)`; treatment `A` has split 75, so
`count = round(4 * 0.75) = 3`. -/
def cfgSub : ExperimentConfig :=
  { name := "exp"
    repo := "r"
    base := "b"
    treatments := [Treatment.Patch { name := "A", patch := "p" }]
    assignment := { split := [("A", 75)], strategy := StrategyType.Random { seed := 0 } }
    hooks := hooksNone
    templating := none
    symlinks := none
    symlinks_base := none
    environment := none
    shard_count := 4
    minmax := (0, 2) }

/-- A draw stream under which the shuffle of `[0,1,2,3]` is
`[2, 1, 0, 3]`: the out-of-window id 2 precedes the in-window ids 1 and
0 in the prefix of length 3. -/
def streamSub : Nat → String → Nat → Nat :=
  fun _ _ k => if k = 3 then 3 else if k = 2 then 0 else 1

/-- The lockfile a first `cfgSub` build persists: ids 1 and 0 were
applied (id 2 fell outside the window and was skipped unrecorded). -/
def lockSub : LockFile :=
  { assignment := { split := [("A", 75)], strategy := StrategyType.Random { seed := 0 } }
    base := "b"
    repo := "r"
    shard_count := 4
    minmax := (0, 2)
    applied := fun n => if n = "A" then [1, 0] else [] }

/-- Single-shard config used to exhibit the nuclear-rebuild behaviour:
1 shard, split 100 for treatment `A`. -/
def cfgOne : ExperimentConfig :=
  { name := "exp"
    repo := "r"
    base := "b"
    treatments := [Treatment.Patch { name := "A", patch := "p" }]
    assignment := { split := [("A", 100)], strategy := StrategyType.Random { seed := 0 } }
    hooks := hooksNone
    templating := none
    symlinks := none
    symlinks_base := none
    environment := none
    shard_count := 1
    minmax := (0, 1) }

/-- Persisted lockfile of a completed `cfgOne` build: shard 0 already
treated. -/
def lockOne : LockFile :=
  { assignment := { split := [("A", 100)], strategy := StrategyType.Random { seed := 0 } }
    base := "b"
    repo := "r"
    shard_count := 1
    minmax := (0, 1)
    applied := fun n => if n = "A" then [0] else [] }

/-- A lockfile with the `Proxy` strategy. -/
def lockProxy : LockFile :=
  { assignment := { split := [], strategy := StrategyType.Proxy {} }
    base := "b"
    repo := "r"
    shard_count := 1
    minmax := (0, 1)
    applied := fun _ => [] }

/-- Config with the `Proxy` strategy. -/
def cfgProxy : ExperimentConfig :=
  { name := "exp"
    repo := "r"
    base := "b"
    treatments := []
    assignment := { split := [], strategy := StrategyType.Proxy {} }
    hooks := hooksNone
    templating := none
    symlinks := none
    symlinks_base := none
    environment := none
    shard_count := 1
    minmax := (0, 1) }

/-- Git oracle with a single conflicted path `"f"` (ours oid 1, theirs
oid 2). -/
def gitEnvEx : GitEnv :=
  { headCommit := { id := 11, tree := 21, parents := [] }
    mergeBase := fun _ _ => 5
    treeOf := fun _ => 0
    mergeTrees := fun _ _ _ =>
      { entries := []
        conflicts := [{ our := some { path := "f", oid := 1 }
                        their := some { path := "f", oid := 2 } }] }
    writeTree := fun _ => 99
    newCommitId := 42 }

/-- Target commit for the merge fixture. -/
def commitEx : CommitObj := { id := 12, tree := 22, parents := [] }

/-- An environment in which `apply_treatment` always fails (and
everything else succeeds). -/
def envApplyFail : Env :=
  { envAllOk streamSub with applyOk := fun _ _ => false }


/-! ## Permutation facts about the Fisher–Yates shuffle -/

/-- Replacing the element at position `m` by `x` and moving the old
value `y` to the front permutes `x :: t`. -/
theorem cons_set_perm (x : Nat) :
    ∀ (t : List Nat) (m y : Nat), t[m]? = some y →
      List.Perm (y :: t.set m x) (x :: t) := by
  intro t
  induction t with
  | nil => intro m y h; simp at h
  | cons b s ih =>
    intro m y h
    cases m with
    | zero =>
      simp at h
      subst h
      exact List.Perm.swap x b s
    | succ k =>
      simp at h
      have h1 := ih k y h
      rw [List.set_cons_succ]
      exact List.Perm.trans (List.Perm.swap b y _)
        (List.Perm.trans (List.Perm.cons b h1) (List.Perm.swap x b s))

/-- Writing `y` at position `i` and `x` at position `j`, where `x` and
`y` are the current elements at `i` and `j`, permutes the list. -/
theorem set_set_perm :
    ∀ (l : List Nat) (i j x y : Nat), l[i]? = some x → l[j]? = some y →
      List.Perm ((l.set i y).set j x) l := by
  intro l
  induction l with
  | nil => intro i j x y h1 _; simp at h1
  | cons a t ih =>
    intro i j x y h1 h2
    cases i with
    | zero =>
      simp at h1
      subst h1
      cases j with
      | zero =>
        simp at h2
        subst h2
        simp
      | succ k =>
        simp at h2
        rw [List.set_cons_zero, List.set_cons_succ]
        exact cons_set_perm a t k y h2
    | succ m =>
      simp at h1
      cases j with
      | zero =>
        simp at h2
        subst h2
        rw [List.set_cons_succ, List.set_cons_zero]
        exact cons_set_perm a t m x h1
      | succ k =>
        simp at h2
        rw [List.set_cons_succ, List.set_cons_succ]
        exact List.Perm.cons a (ih m k x y h1 h2)

/-- A `listSwap` is a permutation. -/
theorem listSwap_perm (l : List Nat) (i j : Nat) : List.Perm (listSwap l i j) l := by
  unfold listSwap
  cases h1 : l[i]? with
  | none => exact List.Perm.refl l
  | some x =>
    cases h2 : l[j]? with
    | none => exact List.Perm.refl l
    | some y => exact set_set_perm l i j x y h1 h2

/-- Every run of the shuffle loop permutes its input. -/
theorem shuffleAux_perm (rng : Nat → Nat) :
    ∀ (n : Nat) (l : List Nat), List.Perm (shuffleAux rng n l) l := by
  intro n
  induction n with
  | zero => intro l; exact List.Perm.refl l
  | succ i ih =>
    intro l
    exact List.Perm.trans (ih _) (listSwap_perm l (i+1) (rng (i+1) % (i+2)))

/-- `shuffleList` permutes its input. -/
theorem shuffleList_perm (rng : Nat → Nat) (l : List Nat) :
    List.Perm (shuffleList rng l) l :=
  shuffleAux_perm rng (l.length - 1) l

/-- `shuffled_shards` over the full space `[0, n)` is a permutation of
`List.range n`, for every draw stream. -/
theorem shuffled_shards_perm_range (stream : Nat → String → Nat → Nat)
    (seed : Nat) (name : String) (n : Nat) :
    List.Perm (shuffled_shards stream seed name 0 n) (List.range n) := by
  have h := shuffleList_perm (stream seed name) (List.range' 0 n)
  rw [List.range_eq_range']
  simpa [shuffled_shards] using h

/-- C4: under the `Random` strategy the ordering used by `build` is a
permutation of the **full** shard space `[0, shard_count)` (not of the
`[min, max)` window), for every draw stream; and it equals
`shuffled_shards stream seed name 0 shard_count`, a pure function, so
two calls with identical `(seed, name, shard_count)` (and the identical
generator stream those derive) yield identical output — the final
conjunct records this determinism, which is definitional in a pure
embedding. -/
theorem random_order_is_permutation (config : ExperimentConfig)
    (stream : Nat → String → Nat → Nat) (name : String) (r : RandomStrategy)
    (h : config.assignment.strategy = StrategyType.Random r) :
    List.Perm (treatmentOrder config stream name) (List.range config.shard_count)
    ∧ treatmentOrder config stream name
        = shuffled_shards stream r.seed name 0 config.shard_count
    ∧ shuffled_shards stream r.seed name 0 config.shard_count
        = shuffled_shards stream r.seed name 0 config.shard_count := by
  have he : treatmentOrder config stream name
      = shuffled_shards stream r.seed name 0 config.shard_count := by
    unfold treatmentOrder
    rw [h]
  refine ⟨?_, he, rfl⟩
  rw [he]
  exact shuffled_shards_perm_range stream r.seed name config.shard_count

/-- Witness for C4 at a concrete configuration. -/
theorem random_order_is_permutation_witness :
    cfgFull60.assignment.strategy = StrategyType.Random { seed := 0 }
    ∧ List.Perm (treatmentOrder cfgFull60 streamZero "A")
        (List.range cfgFull60.shard_count) := by
  refine ⟨rfl, ?_⟩
  exact (random_order_is_permutation cfgFull60 streamZero "A" { seed := 0 } rfl).1

/-- C3: the compatibility predicate is true iff base, repo url,
shard_count and minmax are identical, both strategies are `Random` with
identical seeds, and every split present in the persisted map is ≤ the
corresponding desired split; splits present only in the desired map are
not consulted (the quantifier ranges over the persisted entries only). -/
theorem lockfile_eq_iff (p d : LockFile) :
    LockFile.eq p d = true ↔
      (p.base = d.base ∧ p.repo = d.repo ∧ p.shard_count = d.shard_count
        ∧ p.minmax = d.minmax
        ∧ (∀ kv ∈ p.assignment.split,
            ∃ bv, lookupSplit d.assignment.split kv.1 = some bv ∧ kv.2 ≤ bv)
        ∧ (∃ r1 r2, p.assignment.strategy = StrategyType.Random r1
            ∧ d.assignment.strategy = StrategyType.Random r2 ∧ r1.seed = r2.seed)) := by
  unfold LockFile.eq
  simp only [Bool.and_eq_true, decide_eq_true_eq, List.all_eq_true]
  constructor
  · rintro ⟨⟨⟨⟨⟨hb, hr⟩, hs⟩, hm⟩, hsplit⟩, hstrat⟩
    refine ⟨hb, hr, hs, hm, ?_, ?_⟩
    · intro kv hkv
      have hh := hsplit kv hkv
      cases hl : lookupSplit d.assignment.split kv.1 with
      | none =>
        rw [hl] at hh
        simp at hh
      | some bv =>
        rw [hl] at hh
        simp at hh
        exact ⟨bv, rfl, hh⟩
    · cases hp : p.assignment.strategy with
      | Proxy ds =>
        rw [hp] at hstrat
        simp at hstrat
      | Random r1 =>
        cases hd : d.assignment.strategy with
        | Proxy ds =>
          rw [hp, hd] at hstrat
          simp at hstrat
        | Random r2 =>
          rw [hp, hd] at hstrat
          simp at hstrat
          exact ⟨r1, r2, rfl, rfl, hstrat⟩
  · rintro ⟨hb, hr, hs, hm, hsplit, r1, r2, hp, hd, hseed⟩
    refine ⟨⟨⟨⟨⟨hb, hr⟩, hs⟩, hm⟩, ?_⟩, ?_⟩
    · intro kv hkv
      obtain ⟨bv, hl, hle⟩ := hsplit kv hkv
      rw [hl]
      simpa using hle
    · rw [hp, hd]
      simpa using hseed

/-- C10: if either lockfile's strategy is `Proxy`, the compatibility
predicate is false (the strategy match of build.rs:31-34 only returns
true for `Random`/`Random`); consequently a config with the `Proxy`
strategy always enters the nuke path with a fresh (empty-`applied`)
lockfile, whatever lockfile is persisted and whatever the nuclear flag. -/
theorem proxy_never_compatible :
    (∀ (p d : LockFile),
      ((∃ ds, p.assignment.strategy = StrategyType.Proxy ds)
        ∨ (∃ ds, d.assignment.strategy = StrategyType.Proxy ds)) →
      LockFile.eq p d = false)
    ∧ (∀ (config : ExperimentConfig) (nuclear : Bool) (persisted : Option LockFile) ds,
        config.assignment.strategy = StrategyType.Proxy ds →
        (initialLockfile config nuclear persisted).2 = true
        ∧ (initialLockfile config nuclear persisted).1 = form_lockfile config) := by
  have hfalse : ∀ (p d : LockFile),
      ((∃ ds, p.assignment.strategy = StrategyType.Proxy ds)
        ∨ (∃ ds, d.assignment.strategy = StrategyType.Proxy ds)) →
      LockFile.eq p d = false := by
    intro p d h
    unfold LockFile.eq
    rcases h with ⟨ds, hp⟩ | ⟨ds, hd⟩
    · rw [hp]
      cases d.assignment.strategy <;> simp
    · rw [hd]
      cases p.assignment.strategy <;> simp
  refine ⟨hfalse, ?_⟩
  intro config nuclear persisted ds h
  have hdes : (form_lockfile config).assignment.strategy = StrategyType.Proxy ds := by
    unfold form_lockfile
    exact h
  have hcmp : compare_lockfile persisted (form_lockfile config) = none := by
    unfold compare_lockfile
    cases persisted with
    | none => rfl
    | some cur =>
      simp only [hfalse cur (form_lockfile config) (Or.inr ⟨ds, hdes⟩)]
      rfl
  unfold initialLockfile
  rw [hcmp]
  exact ⟨rfl, rfl⟩

/-- Witness for C10 at concrete Proxy fixtures. -/
theorem proxy_never_compatible_witness :
    LockFile.eq lockProxy (form_lockfile cfgProxy) = false
    ∧ (initialLockfile cfgProxy false (some lockProxy)).2 = true := by
  constructor
  · exact proxy_never_compatible.1 lockProxy (form_lockfile cfgProxy)
      (Or.inl ⟨{}, rfl⟩)
  · exact (proxy_never_compatible.2 cfgProxy false (some lockProxy) {} rfl).1

/-! ## The inner apply loop (build.rs:367-378) -/

theorem inWindow_false (config : ExperimentConfig) (i : Nat)
    (hw : i < config.minmax.1 ∨ config.minmax.2 ≤ i) : inWindow config i = false := by
  simp only [inWindow, Bool.and_eq_false_iff, decide_eq_false_iff_not, not_le, not_lt]
  omega

theorem inWindow_true (config : ExperimentConfig) (i : Nat)
    (hw : ¬ (i < config.minmax.1 ∨ config.minmax.2 ≤ i)) : inWindow config i = true := by
  simp only [inWindow, Bool.and_eq_true, decide_eq_true_eq]
  omega

/-- When every in-window due id's apply succeeds, the loop applies
exactly the in-window due ids, in order, and appends exactly those to
the applied list. -/
theorem applyLoop_success (env : Env) (config : ExperimentConfig) (name : String) :
    ∀ (due applied : List Nat),
      (∀ i ∈ due, inWindow config i = true → env.applyOk name i = true) →
      applyLoop env config name due applied
        = ((due.filter (fun i => inWindow config i)).map (Event.apply name),
            Except.ok (applied ++ due.filter (fun i => inWindow config i))) := by
  intro due
  induction due with
  | nil => intro applied _; simp [applyLoop]
  | cons i rest ih =>
    intro applied hok
    by_cases hw : i < config.minmax.1 ∨ config.minmax.2 ≤ i
    · have hwf := inWindow_false config i hw
      rw [List.filter_cons]
      simp only [hwf, if_false, Bool.false_eq_true]
      rw [show applyLoop env config name (i :: rest) applied
          = applyLoop env config name rest applied by simp [applyLoop, hw]]
      exact ih applied (fun j hj h => hok j (List.mem_cons_of_mem _ hj) h)
    · have hwt := inWindow_true config i hw
      have ha : env.applyOk name i = true := hok i (List.mem_cons_self _ _) hwt
      rw [List.filter_cons]
      simp only [hwt, if_true]
      rw [show applyLoop env config name (i :: rest) applied
          = (Event.apply name i :: (applyLoop env config name rest (applied ++ [i])).1,
              (applyLoop env config name rest (applied ++ [i])).2) by
        simp [applyLoop, hw, ha]]
      rw [ih (applied ++ [i]) (fun j hj h => hok j (List.mem_cons_of_mem _ hj) h)]
      simp [List.append_assoc]

/-- Every event the apply loop emits is an apply of a due id. -/
theorem applyLoop_events (env : Env) (config : ExperimentConfig) (name : String) :
    ∀ (due applied : List Nat), ∀ e ∈ (applyLoop env config name due applied).1,
      ∃ i, i ∈ due ∧ e = Event.apply name i := by
  intro due
  induction due with
  | nil => intro applied e he; simp [applyLoop] at he
  | cons i rest ih =>
    intro applied e he
    by_cases hw : i < config.minmax.1 ∨ config.minmax.2 ≤ i
    · simp only [applyLoop, hw, if_true] at he
      obtain ⟨j, hj, hee⟩ := ih applied e he
      exact ⟨j, List.mem_cons_of_mem _ hj, hee⟩
    · by_cases ha : env.applyOk name i = true
      · simp only [applyLoop, hw, if_false, ha, if_true] at he
        rcases List.mem_cons.mp he with rfl | he2
        · exact ⟨i, List.mem_cons_self _ _, rfl⟩
        · obtain ⟨j, hj, hee⟩ := ih _ e he2
          exact ⟨j, List.mem_cons_of_mem _ hj, hee⟩
      · simp only [applyLoop, hw, if_false, ha] at he
        rcases List.mem_cons.mp he with rfl | he2
        · exact ⟨i, List.mem_cons_self _ _, rfl⟩
        · simp at he2

/-- When the apply loop completes, the applied list has grown by
exactly the in-window due ids. -/
theorem applyLoop_ok (env : Env) (config : ExperimentConfig) (name : String) :
    ∀ (due applied l : List Nat),
      (applyLoop env config name due applied).2 = Except.ok l →
      l = applied ++ due.filter (fun i => inWindow config i) := by
  intro due
  induction due with
  | nil =>
    intro applied l h
    simp [applyLoop] at h
    simp [h.symm]
  | cons i rest ih =>
    intro applied l h
    by_cases hw : i < config.minmax.1 ∨ config.minmax.2 ≤ i
    · have hwf := inWindow_false config i hw
      simp only [applyLoop, hw, if_true] at h
      rw [List.filter_cons]
      simp only [hwf, if_false, Bool.false_eq_true]
      exact ih applied l h
    · have hwt := inWindow_true config i hw
      by_cases ha : env.applyOk name i = true
      · simp only [applyLoop, hw, if_false, ha, if_true] at h
        have h2 := ih (applied ++ [i]) l h
        rw [List.filter_cons]
        simp only [hwt, if_true]
        rw [h2]
        simp [List.append_assoc]
      · simp only [applyLoop, hw, if_false, ha] at h
        simp at h

/-- C8: during treatment processing a due shard id is applied (an
`Event.apply` is emitted for it) and appended to `applied[name]` iff it
lies in the `[min, max)` window; due ids outside the window are skipped
silently — never applied, never appended. -/
theorem window_filtering (env : Env) (config : ExperimentConfig) (name : String)
    (due applied : List Nat)
    (h : ∀ i ∈ due, inWindow config i = true → env.applyOk name i = true) :
    (∀ i, Event.apply name i ∈ (applyLoop env config name due applied).1
        ↔ (i ∈ due ∧ inWindow config i = true))
    ∧ (applyLoop env config name due applied).2
        = Except.ok (applied ++ due.filter (fun i => inWindow config i)) := by
  rw [applyLoop_success env config name due applied h]
  constructor
  · intro i
    simp only [List.mem_map, List.mem_filter, Event.apply.injEq]
    constructor
    · rintro ⟨j, ⟨hj, hw⟩, h2⟩
      obtain ⟨-, rfl⟩ := h2
      exact ⟨hj, hw⟩
    · rintro ⟨hj, hw⟩
      exact ⟨i, ⟨hj, hw⟩, by simp⟩
  · rfl

/-- Witness for C8: due list `[2, 1, 0]` against the `[0, 2)` window. -/
theorem window_filtering_witness :
    (∀ i ∈ ([2, 1, 0] : List Nat), inWindow cfgSub i = true →
      (envAllOk streamSub).applyOk "A" i = true)
    ∧ ((∀ i, Event.apply "A" i
          ∈ (applyLoop (envAllOk streamSub) cfgSub "A" [2, 1, 0] []).1
          ↔ (i ∈ ([2, 1, 0] : List Nat) ∧ inWindow cfgSub i = true))
        ∧ (applyLoop (envAllOk streamSub) cfgSub "A" [2, 1, 0] []).2
            = Except.ok ([] ++ [2, 1, 0].filter (fun i => inWindow cfgSub i))) :=
  ⟨by decide, window_filtering (envAllOk streamSub) cfgSub "A" [2, 1, 0] [] (by decide)⟩

/-! ## The treatments loop (build.rs:339-379) -/

/-- `take` beyond the length is the whole list, so every `take` is a
`take` of at most the length. -/
theorem take_min_length (l : List Nat) (m : Nat) :
    l.take m = l.take (min m l.length) := by
  rw [List.take_eq_take]
  omega

/-- Every event the treatments loop emits is an apply event of one of
its treatments. -/
theorem treatmentsLoop_events (env : Env) (config : ExperimentConfig) :
    ∀ (ts : List Treatment) (applied : String → List Nat),
      ∀ e ∈ (treatmentsLoop env config ts applied).1,
        ∃ t, t ∈ ts ∧ ∃ i, e = Event.apply t.name i := by
  intro ts
  induction ts with
  | nil => intro applied e he; simp [treatmentsLoop] at he
  | cons t ts ih =>
    intro applied e he
    cases hl : lookupSplit config.assignment.split t.name with
    | none =>
      simp only [treatmentsLoop, hl] at he
      obtain ⟨t', ht', hi⟩ := ih applied e he
      exact ⟨t', List.mem_cons_of_mem _ ht', hi⟩
    | some sp =>
      simp only [treatmentsLoop, hl] at he
      cases hal : (applyLoop env config t.name (dueList env config applied t.name sp)
          (applied t.name)).2 with
      | ok l =>
        rw [hal] at he
        simp only [List.mem_append] at he
        rcases he with he1 | he2
        · obtain ⟨j, -, hee⟩ := applyLoop_events env config t.name _ _ e he1
          exact ⟨t, List.mem_cons_self _ _, j, hee⟩
        · obtain ⟨t', ht', hi⟩ := ih (updApplied applied t.name l) e he2
          exact ⟨t', List.mem_cons_of_mem _ ht', hi⟩
      | error e0 =>
        rw [hal] at he
        obtain ⟨j, -, hee⟩ := applyLoop_events env config t.name _ _ e he
        exact ⟨t, List.mem_cons_self _ _, j, hee⟩

/-- In a duplicate-free ordering, ids at positions `≥ K` are not among
the first `B ≤ K` ids. -/
theorem mem_drop_not_mem_take (ord : List Nat) (c K B : Nat)
    (hnd : ord.Nodup) (hBK : B ≤ K) :
    ∀ j ∈ (ord.take c).drop K, j ∉ ord.take B := by
  intro j hj
  rw [List.drop_take] at hj
  have h1 : j ∈ ord.drop K := List.mem_of_mem_take hj
  have h2 : j ∈ ord.drop B := by
    have hdd : ord.drop K = (ord.drop B).drop (K - B) := by
      rw [List.drop_drop]
      congr 1
      omega
    rw [hdd] at h1
    exact List.mem_of_mem_drop h1
  intro hmem
  exact List.disjoint_take_drop hnd le_rfl hmem h2

/-- If the applied list entering `applyLoop` is an initial segment of
the ordering and every ordering id is in the window, then the applied
list leaving a successful `applyLoop` is again an initial segment of
the ordering, at least as long. -/
theorem applyLoop_ok_initial (env : Env) (config : ExperimentConfig) (name : String)
    (ord : List Nat) (c : Nat) (applied_l l : List Nat)
    (hwin : ∀ i ∈ ord, inWindow config i = true)
    (happ : applied_l = ord.take applied_l.length)
    (hok : (applyLoop env config name ((ord.take c).drop applied_l.length)
        applied_l).2 = Except.ok l) :
    l = ord.take l.length ∧ applied_l.length ≤ l.length := by
  have hdue_sub : ∀ j ∈ (ord.take c).drop applied_l.length, j ∈ ord := by
    intro j hj
    rw [List.drop_take] at hj
    exact List.mem_of_mem_drop (List.mem_of_mem_take hj)
  have hfilter : ((ord.take c).drop applied_l.length).filter
      (fun i => inWindow config i) = (ord.take c).drop applied_l.length :=
    List.filter_eq_self.mpr (fun j hj => hwin j (hdue_sub j hj))
  have hl := applyLoop_ok env config name _ _ l hok
  rw [hfilter] at hl
  by_cases hc : applied_l.length ≤ min c ord.length
  · have htk : applied_l = (ord.take c).take applied_l.length := by
      rw [List.take_take]
      rw [show min applied_l.length c = applied_l.length by omega]
      exact happ
    have hlc : l = ord.take c := by
      rw [hl]
      nth_rewrite 1 [htk]
      exact List.take_append_drop _ _
    constructor
    · rw [hlc, List.length_take]
      exact take_min_length ord c
    · rw [hlc, List.length_take]
      exact hc
  · have hnil : (ord.take c).drop applied_l.length = [] := by
      apply List.drop_eq_nil_of_le
      rw [List.length_take]
      omega
    rw [hnil, List.append_nil] at hl
    rw [hl]
    exact ⟨happ, le_rfl⟩

/-- Master lemma for C1: if for every treatment of `ts` the ordering is
duplicate-free and entirely in-window, the incoming applied list is an
initial segment of the ordering, and the `base` list (the persisted
applied list) is an initial segment no longer than the incoming one,
then no apply event of the loop touches an id recorded in `base`. -/
theorem treatmentsLoop_no_reapply (env : Env) (config : ExperimentConfig)
    (base : String → List Nat) :
    ∀ (ts : List Treatment) (applied : String → List Nat),
      (∀ t ∈ ts,
        (treatmentOrder config env.stream t.name).Nodup
        ∧ (∀ i ∈ treatmentOrder config env.stream t.name, inWindow config i = true)
        ∧ applied t.name
            = (treatmentOrder config env.stream t.name).take (applied t.name).length
        ∧ base t.name
            = (treatmentOrder config env.stream t.name).take (base t.name).length
        ∧ (base t.name).length ≤ (applied t.name).length) →
      ∀ name i, Event.apply name i ∈ (treatmentsLoop env config ts applied).1 →
        i ∉ base name := by
  intro ts
  induction ts with
  | nil => intro applied _ name i h; simp [treatmentsLoop] at h
  | cons t ts ih =>
    intro applied hinv name i he
    obtain ⟨hnd, hwin, happ, hbase, hle⟩ := hinv t (List.mem_cons_self _ _)
    cases hl : lookupSplit config.assignment.split t.name with
    | none =>
      simp only [treatmentsLoop, hl] at he
      exact ih applied (fun t' ht' => hinv t' (List.mem_cons_of_mem _ ht')) name i he
    | some sp =>
      simp only [treatmentsLoop, hl] at he
      cases hal : (applyLoop env config t.name (dueList env config applied t.name sp)
          (applied t.name)).2 with
      | error e0 =>
        rw [hal] at he
        obtain ⟨j, hj, hee⟩ := applyLoop_events env config t.name _ _ _ he
        injection hee with hn1 hn2
        subst hn1
        subst hn2
        simp only [dueList] at hj
        rw [hbase]
        exact mem_drop_not_mem_take _ _ _ _ hnd hle i hj
      | ok l =>
        rw [hal] at he
        simp only [List.mem_append] at he
        rcases he with he1 | he2
        · obtain ⟨j, hj, hee⟩ := applyLoop_events env config t.name _ _ _ he1
          injection hee with hn1 hn2
          subst hn1
          subst hn2
          simp only [dueList] at hj
          rw [hbase]
          exact mem_drop_not_mem_take _ _ _ _ hnd hle i hj
        · refine ih (updApplied applied t.name l) ?_ name i he2
          intro t' ht'
          obtain ⟨hnd', hwin', happ', hbase', hle'⟩ :=
            hinv t' (List.mem_cons_of_mem _ ht')
          by_cases hname : t'.name = t.name
          · have hupd : updApplied applied t.name l t'.name = l := by
              simp [updApplied, hname]
            obtain ⟨hpre, hKle⟩ := applyLoop_ok_initial env config t.name
              (treatmentOrder config env.stream t.name)
              (resolve_count (treatmentOrder config env.stream t.name).length sp)
              (applied t.name) l hwin happ hal
            refine ⟨hnd', hwin', ?_, hbase', ?_⟩
            · rw [hupd, hname]
              exact hpre
            · rw [hupd, hname]
              rw [hname] at hle'
              exact le_trans hle' hKle
          · have hupd : updApplied applied t.name l t'.name = applied t'.name := by
              simp [updApplied, hname]
            rw [hupd]
            exact ⟨hnd', hwin', happ', hbase', hle'⟩

/-- The symlink loop emits no apply events. -/
theorem symlinkLoop_no_apply (env : Env) (i : Nat) :
    ∀ (links : List String) (name : String) (j : Nat),
      Event.apply name j ∉ (symlinkLoop env i links).1 := by
  intro links
  induction links with
  | nil => intro name j h; simp [symlinkLoop] at h
  | cons s rest ih =>
    intro name j h
    by_cases hs : env.symlinkOk i s = true
    · simp only [symlinkLoop, hs, if_true] at h
      rcases List.mem_cons.mp h with heq | hmem
      · simp at heq
      · exact ih name j hmem
    · simp only [symlinkLoop, hs, if_false] at h
      rcases List.mem_cons.mp h with heq | hmem
      · simp at heq
      · simp at hmem

/-- Per-shard finalization emits no apply events. -/
theorem finalizeShard_no_apply (env : Env) (config : ExperimentConfig) (i : Nat)
    (name : String) (j : Nat) :
    Event.apply name j ∉ (finalizeShard env config i).1 := by
  unfold finalizeShard
  by_cases hb : config.hooks.build.isSome = true <;>
    by_cases hbo : env.buildHookOk i = true <;>
      by_cases ht : config.templating.isSome = true <;>
        by_cases hto : env.templateOk i = true <;>
          cases hsym : config.symlinks <;>
            simp [hb, hbo, ht, hto, hsym, symlinkLoop_no_apply env i]

/-- The finalization loop emits no apply events. -/
theorem finalizeLoop_no_apply (env : Env) (config : ExperimentConfig) :
    ∀ (l : List Nat) (name : String) (j : Nat),
      Event.apply name j ∉ (finalizeLoop env config l).1 := by
  intro l
  induction l with
  | nil => intro name j h; simp [finalizeLoop] at h
  | cons i rest ih =>
    intro name j h
    cases hf : (finalizeShard env config i).2 with
    | ok u =>
      simp only [finalizeLoop, hf] at h
      rcases List.mem_append.mp h with h1 | h2
      · exact finalizeShard_no_apply env config i name j h1
      · exact ih name j h2
    | error e0 =>
      simp only [finalizeLoop, hf] at h
      exact finalizeShard_no_apply env config i name j h

/-- A compatible lockfile pair has `Random` strategies on both sides
with equal seeds (the strategy match of `LockFile::eq`). -/
theorem lockfile_eq_strategies (p d : LockFile) (h : LockFile.eq p d = true) :
    ∃ r1 r2, p.assignment.strategy = StrategyType.Random r1
      ∧ d.assignment.strategy = StrategyType.Random r2 ∧ r1.seed = r2.seed := by
  unfold LockFile.eq at h
  simp only [Bool.and_eq_true] at h
  obtain ⟨-, hstrat⟩ := h
  cases hp : p.assignment.strategy with
  | Proxy ds =>
    rw [hp] at hstrat
    simp at hstrat
  | Random r1 =>
    cases hd : d.assignment.strategy with
    | Proxy ds =>
      rw [hp, hd] at hstrat
      simp at hstrat
    | Random r2 =>
      rw [hp, hd] at hstrat
      simp at hstrat
      exact ⟨r1, r2, rfl, rfl, hstrat⟩

/-- The nuke phase emits no apply events. -/
theorem nukeStep_no_apply (env : Env) (config : ExperimentConfig) (nuke : Bool)
    (name : String) (j : Nat) :
    Event.apply name j ∉ (nukeStep env config nuke).1 := by
  unfold nukeStep
  by_cases hn : nuke = true <;>
    by_cases hr : env.removeOk = true <;>
      by_cases hc : env.cloneOk = true <;>
        cases hh : config.hooks.control_build <;>
          by_cases hco : env.controlHookOk = true <;>
            simp [hn, hr, hc, hh, hco]

/-- Every apply event of a build run is emitted by its treatments
loop, started on the `applied` map of the chosen in-progress lockfile. -/
theorem build_apply_events (config : ExperimentConfig) (nuclear : Bool)
    (persisted : Option LockFile) (env : Env) (name : String) (i : Nat)
    (he : Event.apply name i ∈ (build config nuclear persisted env).1) :
    Event.apply name i ∈ (treatmentsLoop env config config.treatments
      (initialLockfile config nuclear persisted).1.applied).1 := by
  simp only [build] at he
  cases hns : (nukeStep env config (initialLockfile config nuclear persisted).2).2 with
  | error e0 =>
    rw [hns] at he
    exact absurd he (nukeStep_no_apply env config _ name i)
  | ok u =>
    rw [hns] at he
    by_cases hs : env.shardsOk = true
    · rw [if_pos hs] at he
      cases htl : (treatmentsLoop env config config.treatments
          (initialLockfile config nuclear persisted).1.applied).2 with
      | error e0 =>
        rw [htl] at he
        rcases List.mem_append.mp he with h1 | h2
        · exact absurd h1 (nukeStep_no_apply env config _ name i)
        · rcases List.mem_cons.mp h2 with heq | h3
          · simp at heq
          · exact h3
      | ok appliedF =>
        rw [htl] at he
        by_cases hcond : (config.hooks.build.isSome || config.templating.isSome
            || config.symlinks.isSome) = true
        · rw [if_pos hcond] at he
          cases hfin : (finalizeLoop env config (shardRange config)).2 with
          | error e0 =>
            rw [hfin] at he
            rcases List.mem_append.mp he with h1 | h2
            · exact absurd h1 (nukeStep_no_apply env config _ name i)
            · rcases List.mem_cons.mp h2 with heq | h3
              · simp at heq
              · rcases List.mem_append.mp h3 with h4 | h5
                · exact h4
                · exact absurd h5
                    (finalizeLoop_no_apply env config (shardRange config) name i)
          | ok u2 =>
            rw [hfin] at he
            rcases List.mem_append.mp he with h1 | h2
            · exact absurd h1 (nukeStep_no_apply env config _ name i)
            · rcases List.mem_cons.mp h2 with heq | h3
              · simp at heq
              · rcases List.mem_append.mp h3 with h4 | h5
                · rcases List.mem_append.mp h4 with h6 | h7
                  · exact h6
                  · exact absurd h7
                      (finalizeLoop_no_apply env config (shardRange config) name i)
                · simp at h5
        · rw [if_neg hcond] at he
          rcases List.mem_append.mp he with h1 | h2
          · exact absurd h1 (nukeStep_no_apply env config _ name i)
          · rcases List.mem_cons.mp h2 with heq | h3
            · simp at heq
            · rcases List.mem_append.mp h3 with h4 | h5
              · rcases List.mem_append.mp h4 with h6 | h7
                · exact h6
                · simp at h7
              · simp at h5
    · rw [if_neg hs] at he
      rcases List.mem_append.mp he with h1 | h2
      · exact absurd h1 (nukeStep_no_apply env config _ name i)
      · simp at h2

/-- C1 (amended): in a compatible, non-nuclear build — so the persisted
lockfile is reused and no nuke happens — **provided** the window covers
the full shard space (`minmax = (0, shard_count)`) and each treatment's
persisted applied list is an initial segment of that treatment's
ordering (which full-window builds themselves maintain: after a
split-30 build the applied list is the first `round(n*0.30)` ordered
ids, and a rebuild at split 60 processes only the additional ones),
`apply_treatment` is invoked only on shard ids not already listed in
`applied[name]`.  Without the full-window proviso the original claim is
false: see `reprocess_counterexample`. -/
theorem no_reprocess_compatible_full (config : ExperimentConfig) (env : Env)
    (cur : LockFile)
    (hcompat : LockFile.eq cur (form_lockfile config) = true)
    (hfull : config.minmax = (0, config.shard_count))
    (hpre : ∀ t ∈ config.treatments,
      cur.applied t.name
        = (treatmentOrder config env.stream t.name).take (cur.applied t.name).length) :
    ∀ name i, Event.apply name i ∈ (build config false (some cur) env).1 →
      i ∉ cur.applied name := by
  intro name i he
  have hinit : initialLockfile config false (some cur) = (cur, false) := by
    simp [initialLockfile, compare_lockfile, hcompat]
  obtain ⟨r1, r2, hcs, hds, -⟩ :=
    lockfile_eq_strategies cur (form_lockfile config) hcompat
  have hcfg : config.assignment.strategy = StrategyType.Random r2 := hds
  have horder : ∀ nm, List.Perm (treatmentOrder config env.stream nm)
      (List.range config.shard_count) := by
    intro nm
    unfold treatmentOrder
    rw [hcfg]
    exact shuffled_shards_perm_range env.stream r2.seed nm config.shard_count
  have hnodup : ∀ nm, (treatmentOrder config env.stream nm).Nodup := by
    intro nm
    exact ((horder nm).nodup_iff).mpr (List.nodup_range config.shard_count)
  have hwin : ∀ nm, ∀ j ∈ treatmentOrder config env.stream nm,
      inWindow config j = true := by
    intro nm j hj
    have hr : j ∈ List.range config.shard_count := ((horder nm).mem_iff).mp hj
    have hlt := List.mem_range.mp hr
    simp only [inWindow, hfull, Bool.and_eq_true, decide_eq_true_eq]
    omega
  have htl := build_apply_events config false (some cur) env name i he
  rw [hinit] at htl
  exact treatmentsLoop_no_reapply env config cur.applied
    config.treatments cur.applied
    (fun t ht => ⟨hnodup t.name, hwin t.name, hpre t ht, hpre t ht, le_rfl⟩)
    name i htl

/-- Witness for C1 at the 30 → 60 scenario: the persisted split-30
lockfile is compatible with the split-60 config, covers the full
window, and its applied list `[1,2,3]` is the first 3 ids of the
ordering `[1,2,3,4,5,6,7,8,9,0]`; the rebuild touches no recorded id
(it applies exactly ids 4, 5, 6). -/
theorem no_reprocess_compatible_full_witness :
    (LockFile.eq lock30 (form_lockfile cfgFull60) = true
      ∧ cfgFull60.minmax = (0, cfgFull60.shard_count)
      ∧ (∀ t ∈ cfgFull60.treatments,
          lock30.applied t.name
            = (treatmentOrder cfgFull60 (envAllOk streamZero).stream t.name).take
                (lock30.applied t.name).length))
    ∧ (∀ name i, Event.apply name i
        ∈ (build cfgFull60 false (some lock30) (envAllOk streamZero)).1 →
        i ∉ lock30.applied name) :=
  ⟨⟨by decide, by decide, by decide⟩,
    no_reprocess_compatible_full cfgFull60 (envAllOk streamZero) lock30
      (by decide) (by decide) (by decide)⟩

/-- Counterexample to C1 as stated: under `cfgSub` (window `[0, 2)` of
a 4-shard space, ordering `[2,1,0,3]`, split 75 so `count = 3`) a first
build persists `applied["A"] = [1, 0]` (id 2 was skipped unrecorded);
the second build is compatible and does not nuke, yet invokes
`apply_treatment` on shard 0 — an id already recorded in the persisted
applied map. -/
theorem reprocess_counterexample :
    ((build cfgSub false none (envAllOk streamSub)).2.toOption.map
        (fun lf => lf.applied "A")) = some [1, 0]
    ∧ LockFile.eq lockSub (form_lockfile cfgSub) = true
    ∧ (initialLockfile cfgSub false (some lockSub)).2 = false
    ∧ 0 ∈ lockSub.applied "A"
    ∧ Event.apply "A" 0 ∈ (build cfgSub false (some lockSub) (envAllOk streamSub)).1 := by
  refine ⟨by decide, by decide, by decide, by decide, by decide⟩

/-- C2 is violated by the code (code bug): forcing a nuclear build
while the persisted lockfile is compatible replaces the in-progress
lockfile with the **persisted** one *before* the nuke decision is acted
on (build.rs:324-328), so the nuked build runs with the old non-empty
`applied` map: the build directory is deleted and re-cloned, yet no
treatment is re-applied to the fresh shards and the written lockfile
still claims shard 0 was treated. -/
theorem nuclear_keeps_applied_bug :
    (initialLockfile cfgOne true (some lockOne)).2 = true
    ∧ (initialLockfile cfgOne true (some lockOne)).1.applied "A" = [0]
    ∧ LockFile.eq lockOne (form_lockfile cfgOne) = true
    ∧ (build cfgOne true (some lockOne) (envAllOk streamZero)).1
        = [Event.nuke, Event.cloneControl, Event.ensureShards, Event.writeLockfile]
    ∧ ((build cfgOne true (some lockOne) (envAllOk streamZero)).2.toOption.map
        (fun lf => lf.applied "A")) = some [0] := by
  refine ⟨by decide, by decide, by decide, by decide, by decide⟩

/-- The symlink loop never writes the lockfile. -/
theorem symlinkLoop_no_write (env : Env) (i : Nat) :
    ∀ (links : List String), Event.writeLockfile ∉ (symlinkLoop env i links).1 := by
  intro links
  induction links with
  | nil => intro h; simp [symlinkLoop] at h
  | cons s rest ih =>
    intro h
    by_cases hs : env.symlinkOk i s = true
    · simp only [symlinkLoop, hs, if_true] at h
      rcases List.mem_cons.mp h with heq | hmem
      · simp at heq
      · exact ih hmem
    · simp only [symlinkLoop, hs, if_false] at h
      rcases List.mem_cons.mp h with heq | hmem
      · simp at heq
      · simp at hmem

/-- Per-shard finalization never writes the lockfile. -/
theorem finalizeShard_no_write (env : Env) (config : ExperimentConfig) (i : Nat) :
    Event.writeLockfile ∉ (finalizeShard env config i).1 := by
  unfold finalizeShard
  by_cases hb : config.hooks.build.isSome = true <;>
    by_cases hbo : env.buildHookOk i = true <;>
      by_cases ht : config.templating.isSome = true <;>
        by_cases hto : env.templateOk i = true <;>
          cases hsym : config.symlinks <;>
            simp [hb, hbo, ht, hto, hsym, symlinkLoop_no_write env i]

/-- The finalization loop never writes the lockfile. -/
theorem finalizeLoop_no_write (env : Env) (config : ExperimentConfig) :
    ∀ (l : List Nat), Event.writeLockfile ∉ (finalizeLoop env config l).1 := by
  intro l
  induction l with
  | nil => intro h; simp [finalizeLoop] at h
  | cons i rest ih =>
    intro h
    cases hf : (finalizeShard env config i).2 with
    | ok u =>
      simp only [finalizeLoop, hf] at h
      rcases List.mem_append.mp h with h1 | h2
      · exact finalizeShard_no_write env config i h1
      · exact ih h2
    | error e0 =>
      simp only [finalizeLoop, hf] at h
      exact finalizeShard_no_write env config i h

/-- The nuke phase never writes the lockfile. -/
theorem nukeStep_no_write (env : Env) (config : ExperimentConfig) (nuke : Bool) :
    Event.writeLockfile ∉ (nukeStep env config nuke).1 := by
  unfold nukeStep
  by_cases hn : nuke = true <;>
    by_cases hr : env.removeOk = true <;>
      by_cases hc : env.cloneOk = true <;>
        cases hh : config.hooks.control_build <;>
          by_cases hco : env.controlHookOk = true <;>
            simp [hn, hr, hc, hh, hco]

/-- The treatments loop never writes the lockfile. -/
theorem treatmentsLoop_no_write (env : Env) (config : ExperimentConfig)
    (ts : List Treatment) (applied : String → List Nat) :
    Event.writeLockfile ∉ (treatmentsLoop env config ts applied).1 := by
  intro h
  obtain ⟨t, -, i, hee⟩ := treatmentsLoop_events env config ts applied _ h
  simp at hee

/-- If a build's trace contains the lockfile write, the build
succeeded. -/
theorem build_write_implies_ok (config : ExperimentConfig) (nuclear : Bool)
    (persisted : Option LockFile) (env : Env) :
    Event.writeLockfile ∈ (build config nuclear persisted env).1 →
    ∃ lf, (build config nuclear persisted env).2 = Except.ok lf := by
  simp only [build]
  split
  · intro h
    exact absurd h (nukeStep_no_write env config _)
  · split
    · split
      · intro h
        rcases List.mem_append.mp h with h1 | h2
        · exact absurd h1 (nukeStep_no_write env config _)
        · rcases List.mem_cons.mp h2 with heq | h3
          · simp at heq
          · exact absurd h3 (treatmentsLoop_no_write env config _ _)
      · split
        · intro h
          rcases List.mem_append.mp h with h1 | h2
          · exact absurd h1 (nukeStep_no_write env config _)
          · rcases List.mem_cons.mp h2 with heq | h3
            · simp at heq
            · rcases List.mem_append.mp h3 with h4 | h5
              · exact absurd h4 (treatmentsLoop_no_write env config _ _)
              · refine absurd h5 ?_
                split
                · exact finalizeLoop_no_write env config (shardRange config)
                · simp
        · intro h
          exact ⟨_, rfl⟩
    · intro h
      rcases List.mem_append.mp h with h1 | h2
      · exact absurd h1 (nukeStep_no_write env config _)
      · simp at h2

/-- C5: a build that returns an error has not emitted the
`write_lockfile` operation — every error path (nuke/clone, control
hook, shard creation, treatment application, build hook, templating,
symlink) returns before build.rs:416, leaving the on-disk lockfile
untouched.  (The model makes the write itself, plus the final prints,
infallible.) -/
theorem failed_build_no_lockfile_write (config : ExperimentConfig) (nuclear : Bool)
    (persisted : Option LockFile) (env : Env) (e : BuildError)
    (herr : (build config nuclear persisted env).2 = Except.error e) :
    Event.writeLockfile ∉ (build config nuclear persisted env).1 := by
  intro hmem
  obtain ⟨lf, hok⟩ := build_write_implies_ok config nuclear persisted env hmem
  rw [herr] at hok
  exact Except.noConfusion hok

/-- Witness for C5: a failing treatment application aborts the build
before any lockfile write. -/
theorem failed_build_no_lockfile_write_witness :
    (build cfgSub false none envApplyFail).2
        = Except.error (BuildError.applyTreatment "A" 1)
    ∧ Event.writeLockfile ∉ (build cfgSub false none envApplyFail).1 :=
  ⟨rfl, failed_build_no_lockfile_write cfgSub false none envApplyFail
      (BuildError.applyTreatment "A" 1) rfl⟩

/-! ## Conflict-resolution policy (build.rs:162-178) -/

/-- An added entry is in the index. -/
theorem mem_add_entries (idx : MergeIndex) (e : IndexEntry) :
    e ∈ (idx.add e).entries := by
  simp [MergeIndex.add]

/-- Adding an entry at a different path keeps an entry. -/
theorem mem_add_entries_of_ne (idx : MergeIndex) (e e' : IndexEntry)
    (hne : e.path ≠ e'.path) (h : e ∈ idx.entries) :
    e ∈ (idx.add e').entries := by
  simp only [MergeIndex.add, List.mem_append, List.mem_filter]
  exact Or.inl ⟨h, by simpa using hne⟩

/-- One resolution step adds the chosen side (ours preferred, else
theirs). -/
theorem resolveOne_chosen (acc : MergeIndex) (c : ConflictEntry) :
    resolveOne acc c
      = match c.chosen with
        | some e => acc.add e
        | none => acc := by
  unfold resolveOne ConflictEntry.chosen
  cases c.our with
  | some o => rfl
  | none => rfl

/-- The chosen side's path is the conflict's recorded path. -/
theorem chosen_path_eq_sidePath (c : ConflictEntry) (e : IndexEntry)
    (h : c.chosen = some e) : c.sidePath = some e.path := by
  unfold ConflictEntry.chosen at h
  unfold ConflictEntry.sidePath
  cases hc : c.our with
  | some o =>
    rw [hc] at h
    injection h with h
    rw [h]
  | none =>
    rw [hc] at h
    cases ht : c.their with
    | some o =>
      rw [ht] at h
      injection h with h
      rw [h]
    | none =>
      rw [ht] at h
      exact absurd h (by simp)

/-- An entry stays in the index through further resolution steps whose
chosen paths all differ from its path. -/
theorem foldl_resolve_preserve (e : IndexEntry) :
    ∀ (cs : List ConflictEntry) (acc : MergeIndex),
      e ∈ acc.entries →
      (∀ c ∈ cs, ∀ e', c.chosen = some e' → e'.path ≠ e.path) →
      e ∈ (cs.foldl resolveOne acc).entries := by
  intro cs
  induction cs with
  | nil => intro acc h _; simpa using h
  | cons c rest ih =>
    intro acc h hne
    rw [List.foldl_cons]
    apply ih
    · rw [resolveOne_chosen]
      cases hc : c.chosen with
      | none => exact h
      | some e' =>
        exact mem_add_entries_of_ne acc e e'
          (fun hp => (hne c (List.mem_cons_self _ _) e' hc) hp.symm) h
    · intro c' hc' e' he'
      exact hne c' (List.mem_cons_of_mem _ hc') e' he'

/-- Each conflict's chosen side ends up in the resolved index, provided
the conflicts' recorded paths are pairwise distinct. -/
theorem foldl_resolve_mem (e : IndexEntry) :
    ∀ (cs : List ConflictEntry) (acc : MergeIndex) (c : ConflictEntry),
      c ∈ cs → c.chosen = some e →
      (cs.filterMap ConflictEntry.sidePath).Nodup →
      e ∈ (cs.foldl resolveOne acc).entries := by
  intro cs
  induction cs with
  | nil => intro acc c hc; simp at hc
  | cons c0 rest ih =>
    intro acc c hc hch hnd
    rcases List.mem_cons.mp hc with rfl | hmem
    · rw [List.foldl_cons, resolveOne_chosen, hch]
      apply foldl_resolve_preserve e rest (acc.add e) (mem_add_entries acc e)
      intro c' hc' e' he'
      have hsp0 : c.sidePath = some e.path := chosen_path_eq_sidePath c e hch
      have hsp' : c'.sidePath = some e'.path := chosen_path_eq_sidePath c' e' he'
      rw [List.filterMap_cons, hsp0] at hnd
      have hnotin := (List.nodup_cons.mp hnd).1
      intro heq
      apply hnotin
      exact List.mem_filterMap.mpr ⟨c', hc', by rw [hsp', heq]⟩
    · rw [List.foldl_cons]
      apply ih (resolveOne acc c0) c hmem hch
      rw [List.filterMap_cons] at hnd
      cases hsp : c0.sidePath with
      | none =>
        rw [hsp] at hnd
        exact hnd
      | some p =>
        rw [hsp] at hnd
        exact (List.nodup_cons.mp hnd).2

/-- C6: `merge_commit_into` three-way-merges the trees of HEAD and the
target against the tree of their merge base (structurally recorded by
`mergedIndex`), resolves every conflicting path by taking the "ours"
side when one exists and the "theirs" side otherwise, and commits the
resulting tree with exactly two parents: the previous HEAD commit and
the target commit.  The conflicting paths are assumed pairwise
distinct, as git records one conflict per path. -/
theorem merge_commit_spec (g : GitEnv) (target : CommitObj)
    (hnd : ((mergedIndex g target).conflicts.filterMap
        ConflictEntry.sidePath).Nodup) :
    (merge_commit_into g target).1.parents = [g.headCommit.id, target.id]
    ∧ (merge_commit_into g target).1.tree
        = g.writeTree (merge_commit_into g target).2
    ∧ ∀ c ∈ (mergedIndex g target).conflicts, ∀ e, c.chosen = some e →
        e ∈ (merge_commit_into g target).2.entries := by
  refine ⟨rfl, rfl, ?_⟩
  intro c hc e hch
  have h2 : (merge_commit_into g target).2
      = if (mergedIndex g target).conflicts.isEmpty then mergedIndex g target
        else resolveConflicts (mergedIndex g target) := rfl
  rw [h2]
  by_cases hemp : (mergedIndex g target).conflicts.isEmpty = true
  · rw [List.isEmpty_iff] at hemp
    rw [hemp] at hc
    simp at hc
  · rw [if_neg hemp]
    unfold resolveConflicts
    exact foldl_resolve_mem e (mergedIndex g target).conflicts
      (mergedIndex g target) c hc hch hnd

/-- Witness for C6 at the single-conflict git fixture. -/
theorem merge_commit_spec_witness :
    ((mergedIndex gitEnvEx commitEx).conflicts.filterMap
        ConflictEntry.sidePath).Nodup
    ∧ (merge_commit_into gitEnvEx commitEx).1.parents
        = [gitEnvEx.headCommit.id, commitEx.id]
    ∧ (∀ c ∈ (mergedIndex gitEnvEx commitEx).conflicts, ∀ e, c.chosen = some e →
        e ∈ (merge_commit_into gitEnvEx commitEx).2.entries) := by
  have hnd : ((mergedIndex gitEnvEx commitEx).conflicts.filterMap
      ConflictEntry.sidePath).Nodup := by decide
  obtain ⟨h1, -, h3⟩ := merge_commit_spec gitEnvEx commitEx hnd
  exact ⟨hnd, h1, h3⟩

/-- C9: when no run hook is configured, the process supervisor fails
immediately with the missing-hook error ("no run hook found",
runner.rs:5-7): its trace is empty — no environment variable is set, no
child is spawned, nothing else happens. -/
theorem missing_run_hook_fails_immediately (config : ExperimentConfig)
    (spawnOk : Nat → Bool) (h : config.hooks.run = none) :
    runner_run config spawnOk = ([], Except.error "no run hook found") := by
  unfold runner_run
  rw [h]
  rfl

/-- Witness for C9 at a concrete hook-less config. -/
theorem missing_run_hook_witness :
    cfgFull60.hooks.run = none
    ∧ runner_run cfgFull60 (fun _ => true)
        = ([], Except.error "no run hook found") :=
  ⟨rfl, missing_run_hook_fails_immediately cfgFull60 (fun _ => true) rfl⟩

/-! ### The binary64 model: basic correctness of the building blocks -/

theorem natLog2Aux_spec (fuel : Nat) : ∀ n : Nat, 0 < n → n ≤ fuel →
    2 ^ natLog2Aux fuel n ≤ n ∧ n < 2 ^ (natLog2Aux fuel n + 1) := by
  induction fuel with
  | zero => intro n h1 h2; omega
  | succ f ih =>
    intro n h1 h2
    simp only [natLog2Aux]
    split_ifs with h
    · exact ⟨by simpa using h1, by simpa using h⟩
    · have hrec := ih (n / 2) (by omega) (by omega)
      set k := natLog2Aux f (n / 2) with hk
      have e1 : 2 ^ (k + 1) = 2 ^ k * 2 := pow_succ 2 k
      have e2 : 2 ^ (k + 1 + 1) = 2 ^ k * 2 * 2 := by rw [pow_succ, pow_succ]
      omega

theorem natLog2_spec (n : Nat) (h : 0 < n) :
    2 ^ natLog2 n ≤ n ∧ n < 2 ^ (natLog2 n + 1) :=
  natLog2Aux_spec n n h le_rfl

theorem dyLe_iff (e : Int) (a b : Nat) (hb : 0 < b) :
    dyLe e a b = true ↔ (2 : ℚ) ^ e ≤ (a : ℚ) / b := by
  have hbQ : (0 : ℚ) < b := by exact_mod_cast hb
  rcases e with k | k
  · simp only [dyLe, decide_eq_true_eq]
    rw [show ((Int.ofNat k : ℤ)) = (k : ℤ) from rfl, zpow_natCast, le_div_iff₀ hbQ]
    constructor
    · intro h
      have : ((b * 2 ^ k : ℕ) : ℚ) ≤ (a : ℚ) := by exact_mod_cast h
      push_cast at this
      linarith
    · intro h
      have : ((b : ℚ)) * 2 ^ k ≤ (a : ℚ) := by linarith
      exact_mod_cast this
  · simp only [dyLe, decide_eq_true_eq]
    rw [zpow_negSucc]
    rw [show ((2 : ℚ) ^ (k + 1))⁻¹ = 1 / 2 ^ (k + 1) from (one_div _).symm]
    rw [div_le_div_iff₀ (by positivity) hbQ]
    constructor
    · intro h
      have : ((b : ℕ) : ℚ) ≤ ((a * 2 ^ (k + 1) : ℕ) : ℚ) := by exact_mod_cast h
      push_cast at this
      linarith
    · intro h
      have : ((b : ℚ)) ≤ (a : ℚ) * 2 ^ (k + 1) := by linarith
      exact_mod_cast this

theorem div_pow_bound (a b u v : Nat) (hb : 0 < b) (h : 2 ^ u * b < a * 2 ^ v) :
    (2 : ℚ) ^ ((u : ℤ) - (v : ℤ)) < (a : ℚ) / b := by
  have hbQ : (0 : ℚ) < b := by exact_mod_cast hb
  rw [zpow_sub₀ (two_ne_zero), zpow_natCast, zpow_natCast,
    div_lt_div_iff₀ (by positivity) hbQ]
  have hQ : ((2 ^ u * b : ℕ) : ℚ) < ((a * 2 ^ v : ℕ) : ℚ) := by exact_mod_cast h
  push_cast at hQ
  linarith

theorem div_lt_pow_bound (a b u v : Nat) (hb : 0 < b) (h : a * 2 ^ v < 2 ^ u * b) :
    (a : ℚ) / b < (2 : ℚ) ^ ((u : ℤ) - (v : ℤ)) := by
  have hbQ : (0 : ℚ) < b := by exact_mod_cast hb
  rw [zpow_sub₀ (two_ne_zero), zpow_natCast, zpow_natCast,
    div_lt_div_iff₀ hbQ (by positivity)]
  have hQ : ((a * 2 ^ v : ℕ) : ℚ) < ((2 ^ u * b : ℕ) : ℚ) := by exact_mod_cast h
  push_cast at hQ
  linarith

theorem flL_lower (a b : Nat) (ha : 0 < a) (hb : 0 < b) :
    (2 : ℚ) ^ flL a b ≤ (a : ℚ) / b := by
  obtain ⟨hal, hau⟩ := natLog2_spec a ha
  obtain ⟨hbl, hbu⟩ := natLog2_spec b hb
  simp only [flL]
  split_ifs with hd
  · exact (dyLe_iff _ a b hb).mp hd
  · have hmul : 2 ^ natLog2 a * b < a * 2 ^ (natLog2 b + 1) := by
      calc 2 ^ natLog2 a * b < 2 ^ natLog2 a * 2 ^ (natLog2 b + 1) := by
            exact mul_lt_mul_of_pos_left hbu (by positivity)
        _ ≤ a * 2 ^ (natLog2 b + 1) := Nat.mul_le_mul_right _ hal
    have hkey := div_pow_bound a b (natLog2 a) (natLog2 b + 1) hb hmul
    have hexp : ((natLog2 a : ℤ)) - ((natLog2 b + 1 : ℕ) : ℤ)
        = (natLog2 a : ℤ) - (natLog2 b : ℤ) - 1 := by push_cast; ring
    rw [hexp] at hkey
    exact le_of_lt hkey

theorem flL_upper (a b : Nat) (ha : 0 < a) (hb : 0 < b) :
    (a : ℚ) / b < (2 : ℚ) ^ (flL a b + 1) := by
  obtain ⟨hal, hau⟩ := natLog2_spec a ha
  obtain ⟨hbl, hbu⟩ := natLog2_spec b hb
  simp only [flL]
  split_ifs with hd
  · have hmul : a * 2 ^ natLog2 b < 2 ^ (natLog2 a + 1) * b := by
      calc a * 2 ^ natLog2 b < 2 ^ (natLog2 a + 1) * 2 ^ natLog2 b :=
            mul_lt_mul_of_pos_right hau (by positivity)
        _ ≤ 2 ^ (natLog2 a + 1) * b := Nat.mul_le_mul_left _ hbl
    have hkey := div_lt_pow_bound a b (natLog2 a + 1) (natLog2 b) hb hmul
    have hexp : (((natLog2 a + 1 : ℕ)) : ℤ) - ((natLog2 b : ℕ) : ℤ)
        = (natLog2 a : ℤ) - (natLog2 b : ℤ) - 1 + 1 + 1 := by push_cast; ring
    rw [hexp] at hkey
    exact hkey
  · have hd' : ¬ ((2 : ℚ) ^ ((natLog2 a : ℤ) - (natLog2 b : ℤ) - 1 + 1) ≤ (a : ℚ) / b) := by
      rw [← dyLe_iff _ a b hb]
      simpa using hd
    push_neg at hd'
    exact hd'

theorem int_half_bound (R num den : Nat) (hden : 0 < den)
    (key : 2 * |(R : ℤ) * den - num| ≤ (den : ℤ)) :
    |(R : ℚ) - (num : ℚ) / den| ≤ 1 / 2 := by
  have hdQ : (0 : ℚ) < den := by exact_mod_cast hden
  have h2 : (R : ℚ) - (num : ℚ) / den = (((R : ℤ) * den - num : ℤ) : ℚ) / (den : ℚ) := by
    push_cast
    field_simp
  rw [h2, abs_div, abs_of_pos hdQ, div_le_iff₀ hdQ]
  have hkQ : ((2 * |(R : ℤ) * den - num| : ℤ) : ℚ) ≤ ((den : ℤ) : ℚ) := by exact_mod_cast key
  push_cast at hkQ ⊢
  linarith

theorem rnePair_err (num den : Nat) (hden : 0 < den) :
    2 * |(rnePair num den : ℤ) * den - num| ≤ (den : ℤ) := by
  simp only [rnePair]
  set Q := num / den with hQdef
  set r := num % den with hrdef
  have hmod : den * Q + r = num := Nat.div_add_mod num den
  have hlt : r < den := Nat.mod_lt num hden
  have hnumZ : (num : ℤ) = (den : ℤ) * (Q : ℤ) + (r : ℤ) := by exact_mod_cast hmod.symm
  have hcast : ((Q + 1 : ℕ) : ℤ) = (Q : ℤ) + 1 := by push_cast; ring
  split_ifs with h1 h2 h3
  · rw [hnumZ, show (Q : ℤ) * den - ((den : ℤ) * Q + r) = -(r : ℤ) by ring, abs_neg,
      abs_of_nonneg (by positivity)]
    omega
  · rw [hcast, hnumZ,
      show ((Q : ℤ) + 1) * den - ((den : ℤ) * Q + r) = (den : ℤ) - r by ring,
      abs_of_nonneg (by omega)]
    omega
  · rw [hnumZ, show (Q : ℤ) * den - ((den : ℤ) * Q + r) = -(r : ℤ) by ring, abs_neg,
      abs_of_nonneg (by positivity)]
    omega
  · rw [hcast, hnumZ,
      show ((Q : ℤ) + 1) * den - ((den : ℤ) * Q + r) = (den : ℤ) - r by ring,
      abs_of_nonneg (by omega)]
    omega

theorem rnePair_close (num den : Nat) (hden : 0 < den) :
    |(rnePair num den : ℚ) - (num : ℚ) / den| ≤ 1 / 2 :=
  int_half_bound _ num den hden (rnePair_err num den hden)

theorem rnePair_mul_exact (c den : Nat) (hden : 0 < den) : rnePair (c * den) den = c := by
  simp [rnePair, Nat.mul_div_cancel _ hden, Nat.mul_mod_left, hden]

theorem rnePair_zero (den : Nat) (hden : 0 < den) : rnePair 0 den = 0 := by
  simp [rnePair, Nat.zero_div, Nat.zero_mod, hden]

theorem flFrac_ofNat (a b k : Nat) (hE : flL a b - 52 = Int.ofNat k) :
    flFrac a b = (rnePair a (b * 2 ^ k), Int.ofNat k) := by
  unfold flFrac
  rw [hE]

theorem flFrac_negSucc (a b k : Nat) (hE : flL a b - 52 = Int.negSucc k) :
    flFrac a b = (rnePair (a * 2 ^ (k + 1)) b, Int.negSucc k) := by
  unfold flFrac
  rw [hE]

theorem flFrac_fst_zero (b : Nat) (hb : 0 < b) : (flFrac 0 b).1 = 0 := by
  rcases hE : flL 0 b - 52 with k | k
  · rw [flFrac_ofNat 0 b k hE]
    exact rnePair_zero _ (by positivity)
  · rw [flFrac_negSucc 0 b k hE]
    simp only [Nat.zero_mul]
    exact rnePair_zero _ hb

theorem dyVal_zero (e : Int) : dyVal 0 e = 0 := by simp [dyVal]

theorem dyVal_nonneg (m : Nat) (e : Int) : 0 ≤ dyVal m e := by
  unfold dyVal
  positivity

theorem dyadicFrac_val (m : Nat) (e : Int) :
    ((dyadicFrac m e).1 : ℚ) / ((dyadicFrac m e).2 : ℚ) = dyVal m e := by
  rcases e with k | k
  · simp only [dyadicFrac, dyVal]
    rw [show ((Int.ofNat k : ℤ)) = (k : ℤ) from rfl, zpow_natCast]
    push_cast
    ring
  · simp only [dyadicFrac, dyVal, zpow_negSucc]
    push_cast
    rw [div_eq_mul_inv]

theorem dyadicFrac_snd_pos (m : Nat) (e : Int) : 0 < (dyadicFrac m e).2 := by
  rcases e with k | k <;> simp [dyadicFrac]

theorem dyadicFrac_fst_zero (e : Int) : (dyadicFrac 0 e).1 = 0 := by
  rcases e with k | k <;> simp [dyadicFrac]

theorem dyadicFrac_fst_pos (m : Nat) (e : Int) (hm : 0 < m) : 0 < (dyadicFrac m e).1 := by
  rcases e with k | k <;> simp [dyadicFrac, hm]

theorem rha_zero (e : Int) : roundHalfAwayDyadic 0 e = 0 := by
  rcases e with k | k <;> simp [roundHalfAwayDyadic]

theorem rha_err (m : Nat) (e : Int) :
    |(roundHalfAwayDyadic m e : ℚ) - dyVal m e| ≤ 1 / 2 := by
  rcases e with k | k
  · simp only [roundHalfAwayDyadic, dyVal]
    rw [show ((Int.ofNat k : ℤ)) = (k : ℤ) from rfl, zpow_natCast]
    rw [show (((m * 2 ^ k : ℕ)) : ℚ) - (m : ℚ) * 2 ^ k = 0 by push_cast; ring]
    norm_num
  · have hd : 0 < 2 ^ (k + 1) := by positivity
    have key : 2 * |(roundHalfAwayDyadic m (Int.negSucc k) : ℤ) * (2 ^ (k + 1) : ℕ)
        - m| ≤ ((2 ^ (k + 1) : ℕ) : ℤ) := by
      simp only [roundHalfAwayDyadic]
      set Q := m / 2 ^ (k + 1) with hQdef
      set r := m % 2 ^ (k + 1) with hrdef
      have hmod : 2 ^ (k + 1) * Q + r = m := Nat.div_add_mod m (2 ^ (k + 1))
      have hlt : r < 2 ^ (k + 1) := Nat.mod_lt m hd
      have hmZ : (m : ℤ) = ((2 ^ (k + 1) : ℕ) : ℤ) * (Q : ℤ) + (r : ℤ) := by
        exact_mod_cast hmod.symm
      have hcast : ((Q + 1 : ℕ) : ℤ) = (Q : ℤ) + 1 := by push_cast; ring
      split_ifs with h1
      · rw [hcast, hmZ,
          show ((Q : ℤ) + 1) * ((2 ^ (k + 1) : ℕ) : ℤ)
            - (((2 ^ (k + 1) : ℕ) : ℤ) * Q + r) = ((2 ^ (k + 1) : ℕ) : ℤ) - r by ring,
          abs_of_nonneg (by omega)]
        omega
      · rw [hmZ,
          show (Q : ℤ) * ((2 ^ (k + 1) : ℕ) : ℤ)
            - (((2 ^ (k + 1) : ℕ) : ℤ) * Q + r) = -(r : ℤ) by ring,
          abs_neg, abs_of_nonneg (by positivity)]
        omega
    have hval : dyVal m (Int.negSucc k) = (m : ℚ) / ((2 ^ (k + 1) : ℕ) : ℚ) := by
      simp only [dyVal, zpow_negSucc]
      push_cast
      rw [div_eq_mul_inv]
    rw [hval]
    exact int_half_bound _ m (2 ^ (k + 1)) hd key

theorem flFrac_close (a b : Nat) (hb : 0 < b) :
    |dyVal (flFrac a b).1 (flFrac a b).2 - (a : ℚ) / b| ≤ (2 : ℚ) ^ (flL a b - 52) / 2 := by
  have hbQ : (0 : ℚ) < b := by exact_mod_cast hb
  rcases hE : flL a b - 52 with k | k
  · rw [flFrac_ofNat a b k hE]
    have hden : 0 < b * 2 ^ k := by positivity
    have hc := rnePair_close a (b * 2 ^ k) hden
    have hargcast : ((b * 2 ^ k : ℕ) : ℚ) = (b : ℚ) * 2 ^ k := by push_cast; ring
    rw [hargcast] at hc
    have hexpand : dyVal (rnePair a (b * 2 ^ k)) (Int.ofNat k) - (a : ℚ) / b
        = ((rnePair a (b * 2 ^ k) : ℚ) - (a : ℚ) / ((b : ℚ) * 2 ^ k)) * 2 ^ k := by
      simp only [dyVal]
      rw [show ((Int.ofNat k : ℤ)) = (k : ℤ) from rfl, zpow_natCast]
      field_simp
      ring
    rw [hexpand, abs_mul, abs_of_nonneg (by positivity : (0:ℚ) ≤ (2:ℚ) ^ k)]
    calc |(rnePair a (b * 2 ^ k) : ℚ) - (a : ℚ) / ((b : ℚ) * 2 ^ k)| * 2 ^ k
        ≤ (1 / 2) * 2 ^ k := by
          exact mul_le_mul_of_nonneg_right hc (by positivity)
      _ = (2 : ℚ) ^ (Int.ofNat k) / 2 := by
          rw [show ((Int.ofNat k : ℤ)) = (k : ℤ) from rfl, zpow_natCast]
          ring
  · rw [flFrac_negSucc a b k hE]
    have hc := rnePair_close (a * 2 ^ (k + 1)) b hb
    have hargcast : ((a * 2 ^ (k + 1) : ℕ) : ℚ) = (a : ℚ) * 2 ^ (k + 1) := by
      push_cast; ring
    rw [hargcast] at hc
    have hexpand : dyVal (rnePair (a * 2 ^ (k + 1)) b) (Int.negSucc k) - (a : ℚ) / b
        = ((rnePair (a * 2 ^ (k + 1)) b : ℚ) - (a : ℚ) * 2 ^ (k + 1) / b)
          * ((2 : ℚ) ^ (k + 1))⁻¹ := by
      simp only [dyVal, zpow_negSucc]
      field_simp
      ring
    rw [hexpand, abs_mul, abs_of_nonneg (by positivity : (0:ℚ) ≤ ((2:ℚ) ^ (k + 1))⁻¹)]
    calc |(rnePair (a * 2 ^ (k + 1)) b : ℚ) - (a : ℚ) * 2 ^ (k + 1) / b|
          * ((2 : ℚ) ^ (k + 1))⁻¹
        ≤ (1 / 2) * ((2 : ℚ) ^ (k + 1))⁻¹ := by
          exact mul_le_mul_of_nonneg_right hc (by positivity)
      _ = (2 : ℚ) ^ (Int.negSucc k) / 2 := by
          rw [zpow_negSucc]
          ring

theorem flFrac_err (a b : Nat) (ha : 0 < a) (hb : 0 < b) :
    |dyVal (flFrac a b).1 (flFrac a b).2 - (a : ℚ) / b|
      ≤ (a : ℚ) / b * (2 : ℚ) ^ (-53 : ℤ) := by
  refine (flFrac_close a b hb).trans ?_
  have hL := flL_lower a b ha hb
  have h1 : (2 : ℚ) ^ (flL a b - 52) / 2 = (2 : ℚ) ^ flL a b * (2 : ℚ) ^ (-53 : ℤ) := by
    rw [← zpow_add₀ (two_ne_zero : (2:ℚ) ≠ 0)]
    rw [div_eq_mul_inv, ← zpow_neg_one (2 : ℚ), ← zpow_add₀ (two_ne_zero : (2:ℚ) ≠ 0)]
    congr 1
    ring
  rw [h1]
  exact mul_le_mul_of_nonneg_right hL (by positivity)

theorem flFrac_int_exact (n b : Nat) (hn : 0 < n) (hb : 0 < b) (hlt : n < 2 ^ 53) :
    dyVal (flFrac (n * b) b).1 (flFrac (n * b) b).2 = (n : ℚ) := by
  have ha : 0 < n * b := Nat.mul_pos hn hb
  have hbQ : (0 : ℚ) < b := by exact_mod_cast hb
  have hval : ((n * b : ℕ) : ℚ) / b = (n : ℚ) := by
    push_cast
    field_simp
  have hlow := flL_lower (n * b) b ha hb
  rw [hval] at hlow
  have hL52 : flL (n * b) b ≤ 52 := by
    by_contra hc
    push_neg at hc
    have h53 : (53 : ℤ) ≤ flL (n * b) b := by omega
    have hmono : (2 : ℚ) ^ (53 : ℤ) ≤ (2 : ℚ) ^ flL (n * b) b :=
      zpow_le_zpow_right₀ (by norm_num) h53
    have hnQ : (n : ℚ) < (2 : ℚ) ^ (53 : ℤ) := by
      have : ((n : ℕ) : ℚ) < ((2 ^ 53 : ℕ) : ℚ) := by exact_mod_cast hlt
      push_cast at this
      rw [show ((2 : ℚ) ^ (53 : ℤ)) = (2 : ℚ) ^ (53 : ℕ) from zpow_natCast 2 53]
      exact this
    linarith
  rcases hE : flL (n * b) b - 52 with k | k
  · have hE' : flL (n * b) b - 52 = (k : ℤ) := by exact_mod_cast hE
    have hk0 : k = 0 := by omega
    subst hk0
    rw [flFrac_ofNat _ _ _ hE]
    have hb20 : b * 2 ^ 0 = b := by simp
    rw [hb20, rnePair_mul_exact n b hb]
    simp [dyVal]
  · rw [flFrac_negSucc _ _ _ hE]
    have harr : n * b * 2 ^ (k + 1) = n * 2 ^ (k + 1) * b := by ring
    rw [harr, rnePair_mul_exact _ _ hb]
    simp only [dyVal, zpow_negSucc]
    push_cast
    rw [mul_assoc, mul_inv_cancel₀ (by positivity), mul_one]

theorem rha_int (m : Nat) (e : Int) (n : Nat) (h : dyVal m e = (n : ℚ)) :
    roundHalfAwayDyadic m e = n := by
  rcases e with k | k
  · simp only [dyVal] at h
    rw [show ((Int.ofNat k : ℤ)) = (k : ℤ) from rfl, zpow_natCast] at h
    have hN : m * 2 ^ k = n := by exact_mod_cast h
    simpa [roundHalfAwayDyadic] using hN
  · simp only [dyVal, zpow_negSucc] at h
    have hm : (m : ℚ) = (n : ℚ) * 2 ^ (k + 1) := by
      field_simp at h
      linarith
    have hmN : m = n * 2 ^ (k + 1) := by exact_mod_cast hm
    subst hmN
    simp only [roundHalfAwayDyadic]
    rw [Nat.mul_mod_left]
    have hpos : 0 < 2 ^ (k + 1) := by positivity
    rw [if_neg (by omega)]
    exact Nat.mul_div_cancel n hpos

theorem resolve_count_split_zero (len : Nat) : resolve_count len 0 = 0 := by
  simp only [resolve_count]
  set lf := flFrac len 1 with hlf
  set sf := flFrac 0 1 with hsf
  set sd := dyadicFrac sf.1 sf.2 with hsd
  set bf := flFrac sd.1 (sd.2 * 100) with hbf
  set ld := dyadicFrac lf.1 lf.2 with hld
  set bd := dyadicFrac bf.1 bf.2 with hbd
  have hsf1 : sf.1 = 0 := by rw [hsf]; exact flFrac_fst_zero 1 one_pos
  have hsd1 : sd.1 = 0 := by rw [hsd, hsf1]; exact dyadicFrac_fst_zero _
  have hsd2 : 0 < sd.2 := by rw [hsd]; exact dyadicFrac_snd_pos _ _
  have hbf1 : bf.1 = 0 := by
    rw [hbf, hsd1]
    exact flFrac_fst_zero _ (by positivity)
  have hbd1 : bd.1 = 0 := by rw [hbd, hbf1]; exact dyadicFrac_fst_zero _
  have hbd2 : 0 < bd.2 := by rw [hbd]; exact dyadicFrac_snd_pos _ _
  have hld2 : 0 < ld.2 := by rw [hld]; exact dyadicFrac_snd_pos _ _
  have hpf1 : (flFrac (ld.1 * bd.1) (ld.2 * bd.2)).1 = 0 := by
    rw [hbd1, Nat.mul_zero]
    exact flFrac_fst_zero _ (by positivity)
  rw [hpf1]
  exact rha_zero _

theorem resolve_count_len_zero (sp : Nat) : resolve_count 0 sp = 0 := by
  simp only [resolve_count]
  set lf := flFrac 0 1 with hlf
  set sf := flFrac sp 1 with hsf
  set sd := dyadicFrac sf.1 sf.2 with hsd
  set bf := flFrac sd.1 (sd.2 * 100) with hbf
  set ld := dyadicFrac lf.1 lf.2 with hld
  set bd := dyadicFrac bf.1 bf.2 with hbd
  have hlf1 : lf.1 = 0 := by rw [hlf]; exact flFrac_fst_zero 1 one_pos
  have hld1 : ld.1 = 0 := by rw [hld, hlf1]; exact dyadicFrac_fst_zero _
  have hld2 : 0 < ld.2 := by rw [hld]; exact dyadicFrac_snd_pos _ _
  have hbd2 : 0 < bd.2 := by rw [hbd]; exact dyadicFrac_snd_pos _ _
  have hpf1 : (flFrac (ld.1 * bd.1) (ld.2 * bd.2)).1 = 0 := by
    rw [hld1, Nat.zero_mul]
    exact flFrac_fst_zero _ (by positivity)
  rw [hpf1]
  exact rha_zero _

theorem resolve_count_hundred (len : Nat) (hlen : len < 2 ^ 53) :
    resolve_count len 100 = len := by
  rcases Nat.eq_zero_or_pos len with h0 | hpos
  · subst h0
    exact resolve_count_len_zero 100
  simp only [resolve_count]
  set lf := flFrac len 1 with hlf
  set sf := flFrac 100 1 with hsf
  set sd := dyadicFrac sf.1 sf.2 with hsd
  set bf := flFrac sd.1 (sd.2 * 100) with hbfd
  set ld := dyadicFrac lf.1 lf.2 with hld
  set bd := dyadicFrac bf.1 bf.2 with hbd
  have hbd1 : bd.1 = 2 ^ 52 := by rw [hbd, hbfd, hsd, hsf]; decide
  have hbd2 : bd.2 = 2 ^ 52 := by rw [hbd, hbfd, hsd, hsf]; decide
  rw [hbd1, hbd2]
  have hlfv : dyVal lf.1 lf.2 = (len : ℚ) := by
    rw [hlf]
    have h := flFrac_int_exact len 1 hpos one_pos hlen
    rwa [Nat.mul_one] at h
  have hldv : (ld.1 : ℚ) / ld.2 = (len : ℚ) := by
    rw [hld, dyadicFrac_val]
    exact hlfv
  have hld2 : 0 < ld.2 := by rw [hld]; exact dyadicFrac_snd_pos _ _
  have hld2Q : (0 : ℚ) < ld.2 := by exact_mod_cast hld2
  rw [div_eq_iff (ne_of_gt hld2Q)] at hldv
  have hldN : ld.1 = len * ld.2 := by exact_mod_cast hldv
  have harr : ld.1 * 2 ^ 52 = len * (ld.2 * 2 ^ 52) := by rw [hldN]; ring
  rw [harr]
  exact rha_int _ _ len (flFrac_int_exact len (ld.2 * 2 ^ 52) hpos (by positivity) hlen)

theorem resolve_count_approx (len sp : Nat) (hlen : len < 2 ^ 48) (hsp : sp ≤ 100) :
    |(resolve_count len sp : ℤ) - round ((len : ℚ) * sp / 100)| ≤ 1 := by
  rcases Nat.eq_zero_or_pos sp with hsp0 | hsp1
  · subst hsp0
    rw [resolve_count_split_zero]
    norm_num
  rcases Nat.eq_zero_or_pos len with hlen0 | hlen1
  · subst hlen0
    rw [resolve_count_len_zero]
    norm_num
  have hlenQ : (0 : ℚ) < len := by exact_mod_cast hlen1
  have hspQ : (0 : ℚ) < sp := by exact_mod_cast hsp1
  have hsp1Q : (1 : ℚ) ≤ sp := by exact_mod_cast hsp1
  have hspleQ : (sp : ℚ) ≤ 100 := by exact_mod_cast hsp
  have hlenleQ : (len : ℚ) ≤ 281474976710656 := by
    have h := hlen
    norm_num at h
    exact_mod_cast h.le
  have ht : (2 : ℚ) ^ (-53 : ℤ) = 1 / 9007199254740992 := by norm_num
  simp only [resolve_count]
  set lf := flFrac len 1 with hlf
  set sf := flFrac sp 1 with hsf
  set sd := dyadicFrac sf.1 sf.2 with hsd
  set bf := flFrac sd.1 (sd.2 * 100) with hbfd
  set ld := dyadicFrac lf.1 lf.2 with hld
  set bd := dyadicFrac bf.1 bf.2 with hbd
  set pf := flFrac (ld.1 * bd.1) (ld.2 * bd.2) with hpf
  set N := roundHalfAwayDyadic pf.1 pf.2 with hN
  -- the split converts exactly
  have hsfv : dyVal sf.1 sf.2 = (sp : ℚ) := by
    rw [hsf]
    have h := flFrac_int_exact sp 1 hsp1 one_pos (lt_of_le_of_lt hsp (by norm_num))
    rwa [Nat.mul_one] at h
  have hsd2 : 0 < sd.2 := by rw [hsd]; exact dyadicFrac_snd_pos _ _
  have hsd2Q : (0 : ℚ) < sd.2 := by exact_mod_cast hsd2
  have hsdv : (sd.1 : ℚ) / sd.2 = (sp : ℚ) := by
    rw [hsd, dyadicFrac_val]
    exact hsfv
  have hsd1 : 0 < sd.1 := by
    rcases Nat.eq_zero_or_pos sd.1 with h0 | h
    · exfalso
      rw [h0] at hsdv
      simp at hsdv
      linarith
    · exact h
  -- division by 100: one rounding error
  have herr1 := flFrac_err sd.1 (sd.2 * 100) hsd1 (by positivity)
  rw [← hbfd] at herr1
  have hfrac : (sd.1 : ℚ) / ((sd.2 * 100 : ℕ) : ℚ) = (sp : ℚ) / 100 := by
    push_cast
    rw [← div_div, hsdv]
  rw [hfrac, ht] at herr1
  set B := dyVal bf.1 bf.2 with hB
  have hBbounds := abs_le.mp herr1
  have hBpos : 0 < B := by
    obtain ⟨h1, h2⟩ := hBbounds
    nlinarith
  have hBnonneg : 0 ≤ B := le_of_lt hBpos
  have hbf1 : 0 < bf.1 := by
    rcases Nat.eq_zero_or_pos bf.1 with h0 | h
    · exfalso
      have hB0 := hB
      rw [h0, dyVal_zero] at hB0
      linarith [hBpos, hB0.ge, hB0.le]
    · exact h
  have hbd2 : 0 < bd.2 := by rw [hbd]; exact dyadicFrac_snd_pos _ _
  have hbd1pos : 0 < bd.1 := by rw [hbd]; exact dyadicFrac_fst_pos _ _ hbf1
  have hbdv : (bd.1 : ℚ) / bd.2 = B := by
    rw [hbd, dyadicFrac_val]
  -- the length converts exactly
  have hlfv : dyVal lf.1 lf.2 = (len : ℚ) := by
    rw [hlf]
    have h := flFrac_int_exact len 1 hlen1 one_pos
      (lt_trans hlen (by norm_num))
    rwa [Nat.mul_one] at h
  have hlf1 : 0 < lf.1 := by
    rcases Nat.eq_zero_or_pos lf.1 with h0 | h
    · exfalso
      rw [h0, dyVal_zero] at hlfv
      linarith
    · exact h
  have hld2 : 0 < ld.2 := by rw [hld]; exact dyadicFrac_snd_pos _ _
  have hld1 : 0 < ld.1 := by rw [hld]; exact dyadicFrac_fst_pos _ _ hlf1
  have hldv : (ld.1 : ℚ) / ld.2 = (len : ℚ) := by
    rw [hld, dyadicFrac_val]
    exact hlfv
  -- the product: one rounding error
  have herr2 := flFrac_err (ld.1 * bd.1) (ld.2 * bd.2)
    (Nat.mul_pos hld1 hbd1pos) (Nat.mul_pos hld2 hbd2)
  rw [← hpf] at herr2
  have hprod : ((ld.1 * bd.1 : ℕ) : ℚ) / ((ld.2 * bd.2 : ℕ) : ℚ) = (len : ℚ) * B := by
    push_cast
    rw [← div_mul_div_comm, hldv, hbdv]
  rw [hprod, ht] at herr2
  set P := dyVal pf.1 pf.2 with hP
  have hrha := rha_err pf.1 pf.2
  rw [← hN, ← hP] at hrha
  -- nonlinear bounds, then assemble linearly
  have hsub : |(len : ℚ) * B - (len : ℚ) * ((sp : ℚ) / 100)|
      ≤ 281474976710656 * ((sp : ℚ) / 100 * (1 / 9007199254740992)) := by
    rw [← mul_sub, abs_mul, abs_of_nonneg (le_of_lt hlenQ)]
    exact mul_le_mul hlenleQ herr1 (abs_nonneg _) (by norm_num)
  have hy : (len : ℚ) * ((sp : ℚ) / 100) ≤ 281474976710656 := by
    calc (len : ℚ) * ((sp : ℚ) / 100) ≤ 281474976710656 * 1 :=
          mul_le_mul hlenleQ (by linarith) (by positivity) (by norm_num)
      _ = 281474976710656 := by norm_num
  have hx0 : 0 ≤ (len : ℚ) * B := mul_nonneg (le_of_lt hlenQ) hBnonneg
  have hconn : (len : ℚ) * (sp : ℚ) / 100 = (len : ℚ) * ((sp : ℚ) / 100) := by ring
  have hround := abs_sub_round ((len : ℚ) * sp / 100)
  have hQ2 : |(N : ℚ) - ((round ((len : ℚ) * sp / 100) : ℤ) : ℚ)| < 2 := by
    obtain ⟨ha1, ha2⟩ := abs_le.mp hrha
    obtain ⟨hb1, hb2⟩ := abs_le.mp herr2
    obtain ⟨hc1, hc2⟩ := abs_le.mp hsub
    obtain ⟨hd1, hd2⟩ := abs_le.mp hround
    rw [abs_lt]
    constructor <;> linarith
  have hZ : |(N : ℤ) - round ((len : ℚ) * sp / 100)| < 2 := by
    rw [abs_lt] at hQ2 ⊢
    obtain ⟨h1, h2⟩ := hQ2
    constructor
    · exact_mod_cast h1
    · exact_mod_cast h2
  rw [abs_lt] at hZ
  rw [abs_le]
  omega

/-- C7 (corrected): the claim says the selected count equals
`round(len * split / 100)` exactly, with split 0 giving 0 and split 100
giving the full length.  As corrected: `resolve_count` is the binary64
evaluation of
`len as f64 * (split as f64 / 100.0)` rounded half away from zero
(build.rs:361); split 0 gives 0, split 100 gives `len`, and the result is
within 1 of the exact `round(len * split / 100)` for every `len < 2^48` and
`split ≤ 100` — but exact equality fails (see the counterexample at
`len = 45`, `split = 70`, where the f64 product `31.499999999999996` rounds
to 31 while the exact value `31.5` rounds to 32). -/
theorem resolve_count_float_spec (len sp : Nat) (hlen : len < 2 ^ 48) (hsp : sp ≤ 100) :
    resolve_count len 0 = 0 ∧
    resolve_count len 100 = len ∧
    |(resolve_count len sp : ℤ) - round ((len : ℚ) * sp / 100)| ≤ 1 :=
  ⟨resolve_count_split_zero len,
   resolve_count_hundred len (lt_trans hlen (by norm_num)),
   resolve_count_approx len sp hlen hsp⟩

/-- Witness for C7 at `len = 10`, `split = 60`. -/
theorem resolve_count_float_spec_witness :
    (10 < 2 ^ 48 ∧ 60 ≤ 100) ∧
      (resolve_count 10 0 = 0 ∧ resolve_count 10 100 = 10 ∧
        |(resolve_count 10 60 : ℤ) - round ((10 : ℚ) * 60 / 100)| ≤ 1) :=
  ⟨⟨by norm_num, by norm_num⟩, resolve_count_float_spec 10 60 (by norm_num) (by norm_num)⟩

/-- Counterexample to the exact-rounding reading of C7: at 45 ids and a 70%
split the binary64 computation of build.rs:361 yields 31, while exact
rounding of `45 * 70 / 100 = 31.5` (half away from zero, as `f64::round`)
yields 32. -/
theorem resolve_count_round_counterexample :
    resolve_count 45 70 = 31 ∧ round ((45 : ℚ) * 70 / 100) = 32 ∧
      (resolve_count 45 70 : ℤ) ≠ round ((45 : ℚ) * 70 / 100) := by
  have h1 : resolve_count 45 70 = 31 := by decide
  have h2 : round ((45 : ℚ) * 70 / 100) = 32 := by
    rw [show ((45 : ℚ) * 70 / 100) = 63 / 2 by norm_num, round_eq]
    norm_num
  refine ⟨h1, h2, ?_⟩
  rw [h1, h2]
  decide
